import Mathlib

/-!
Verification of the auto-organize directory organizer.

The program scans one directory and relocates each immediate child into a
category subfolder: files go to the category mapped from their lowercased
extension (default "Others"), loose subdirectories go to "Folders", and
subdirectories bearing a protected category name are left alone.

The embedding below models the filesystem as a finite association list from
paths (lists of final components, relative to the target directory) to a
kind flag (`true` = directory, `false` = regular file).  `fs::rename` and
`fs::create_dir_all` are modelled as pure operations on that state;
`fs::rename` returns `none` exactly when the operating system would refuse
the call (missing source, destination parent absent or not a directory,
destination occupied, or a directory moved into its own subtree).
-/

set_option maxRecDepth 8000

namespace AutoOrganize

/-- A final path component as the OS reports it: either valid UTF-8 (so
`OsStr::to_str` succeeds) or a non-UTF-8 name, identified by a numeric id and
carrying the result that `extension().and_then(to_str)` yields for it (a
non-UTF-8 name can still have a valid UTF-8 extension). -/
inductive RName where
  | utf8 : String → RName
  | raw : Nat → Option String → RName
  deriving DecidableEq

/-- Model of `OsStr::to_str` for a file name. -/
def RName.toStr? : RName → Option String
  | .utf8 s => some s
  | .raw _ _ => none

/-- The characters after the last dot of the list, when a dot occurs. -/
def afterLastDot : List Char → Option (List Char)
  | [] => none
  | c :: cs =>
    match afterLastDot cs with
    | some r => some r
    | none => if c = '.' then some cs else none

/-- Model of Rust `Path::extension` on a UTF-8 file name: the portion after
the last dot of the final component, or `none` when there is no dot or the
only dot is the leading character. -/
def rustExtension (s : String) : Option String :=
  match s.data with
  | [] => none
  | _ :: rest => (afterLastDot rest).map (fun cs => String.mk cs)

/-- Model of `path.extension().and_then(|s| s.to_str())` for an entry name. -/
def RName.extOf : RName → Option String
  | .utf8 s => rustExtension s
  | .raw _ e => e

/-- A path relative to the target directory, as a list of components. -/
abbrev FPath := List RName

/-- The filesystem state: an association list from existing paths to their
kind, `true` for a directory and `false` for a regular file. -/
abbrev FS := List (FPath × Bool)

/-- The kind recorded for a path, when the path exists. -/
def FS.kindOf (fs : FS) (p : FPath) : Option Bool :=
  (fs.find? (fun e => decide (e.1 = p))).map (fun e => e.2)

/-- Model of `Path::exists`. -/
def FS.existsP (fs : FS) (p : FPath) : Bool :=
  (fs.kindOf p).isSome

/-- Model of `Path::is_dir`. -/
def FS.isDirP (fs : FS) (p : FPath) : Bool :=
  (fs.kindOf p).getD false

/-- The nonempty prefixes of a path, shortest first. -/
def prefsOf (p : FPath) : List FPath :=
  (List.range p.length).map (fun i => p.take (i + 1))

/-- Model of `fs::create_dir_all`: create the directory together with any
missing ancestors. -/
def FS.createDirAll (fs : FS) (p : FPath) : FS :=
  (prefsOf p).foldl (fun acc q => if acc.existsP q then acc else acc ++ [(q, true)]) fs

/-- Boolean prefix test on paths. -/
def FPath.isPre (p q : FPath) : Bool :=
  decide (p <+: q)

/-- Whether `std::fs::rename src dst` succeeds: the source exists, the
destination parent is the base directory or an existing directory, the
destination itself is absent (the organizer always checks this before
calling), and the destination does not sit strictly below the source. -/
def FS.renamePre (fs : FS) (src dst : FPath) : Bool :=
  (fs.kindOf src).isSome
    && (decide (dst.dropLast = []) || decide (fs.kindOf dst.dropLast = some true))
    && !(fs.existsP dst)
    && !(FPath.isPre src dst && !(decide (src = dst)))

/-- The relocation `std::fs::rename` applies to each path: paths at or
below the source move below the destination, all others stay. -/
def renFun (src dst : FPath) (e : FPath × Bool) : FPath × Bool :=
  if FPath.isPre src e.1 then (dst ++ e.1.drop src.length, e.2) else e

/-- Model of `std::fs::rename`: relocate `src` and everything beneath it to
`dst`, or `none` when the operating system refuses the call. -/
def FS.rename (fs : FS) (src dst : FPath) : Option FS :=
  if fs.renamePre src dst then some (fs.map (renFun src dst)) else none

/-- One line of console output, kept structured; rendering to the literal
text is done by `renderMsg`. -/
inductive Msg where
  | skipFile : RName → String → Msg
  | catFile : String → RName → Msg
  | skipDir : RName → String → Msg
  | catDir : String → RName → Msg
  | errCreateDir : Msg
  | errMoveFile : RName → Msg
  | errCreateContainerDir : Msg
  | errMoveDir : RName → Msg
  deriving DecidableEq

/-- The outcome of `process_file` or `process_directory`: the returned
boolean, the filesystem afterwards, the stdout lines and the stderr lines. -/
structure ProcResult where
  acted : Bool
  fs : FS
  out : List Msg
  err : List Msg
  deriving DecidableEq

/-- Translation of `process_file` (src/main.rs lines 108 to 135): move one
file into a category folder, creating the folder when needed and skipping on
a name collision. -/
def process_file (fs : FS) (file_path base_dir : FPath) (category : String)
    (dry_run : Bool) : ProcResult :=
  let category_dir : FPath := base_dir ++ [RName.utf8 category]
  let fs1 := if !dry_run && !(fs.existsP category_dir) then fs.createDirAll category_dir else fs
  let file_name : RName := file_path.getLast?.getD (RName.utf8 "")
  let dest_path : FPath := category_dir ++ [file_name]
  if fs1.existsP dest_path then
    ⟨false, fs1, [Msg.skipFile file_name category], []⟩
  else
    if !dry_run then
      match fs1.rename file_path dest_path with
      | some fs2 => ⟨true, fs2, [Msg.catFile category file_name], []⟩
      | none => ⟨false, fs1, [Msg.catFile category file_name], [Msg.errMoveFile file_name]⟩
    else ⟨true, fs1, [Msg.catFile category file_name], []⟩

/-- Translation of `process_directory` (src/main.rs lines 138 to 178): move
one directory into a container folder, guarding against moving the container
into itself and skipping on a name collision. -/
def process_directory (fs : FS) (dir_path base_dir : FPath) (dest_container : String)
    (dry_run : Bool) : ProcResult :=
  let container_dir : FPath := base_dir ++ [RName.utf8 dest_container]
  let fs1 := if !dry_run && !(fs.existsP container_dir) then fs.createDirAll container_dir else fs
  let dir_name : RName := dir_path.getLast?.getD (RName.utf8 "")
  let dest_path : FPath := container_dir ++ [dir_name]
  if dir_path = container_dir then
    ⟨false, fs1, [], []⟩
  else if fs1.existsP dest_path then
    ⟨false, fs1, [Msg.skipDir dir_name dest_container], []⟩
  else
    if !dry_run then
      match fs1.rename dir_path dest_path with
      | some fs2 => ⟨true, fs2, [Msg.catDir dest_container dir_name], []⟩
      | none => ⟨false, fs1, [Msg.catDir dest_container dir_name], [Msg.errMoveDir dir_name]⟩
    else ⟨true, fs1, [Msg.catDir dest_container dir_name], []⟩

/-- Translation of `get_protected_folder_names` (lines 181 to 195), in
insertion order. -/
def get_protected_folder_names : List String :=
  ["images", "documents", "spreadsheets", "presentations", "archives",
   "audio", "video", "code", "APPS", "Others", "Folders"]

/-- The static category data of `get_extension_map` (lines 200 to 233). -/
def categories : List (String × List String) :=
  [("images", ["jpg", "jpeg", "png", "gif", "bmp", "svg", "webp", "ico", "tiff", "heic"]),
   ("documents", ["pdf", "doc", "docx", "txt", "rtf", "odt", "md"]),
   ("spreadsheets", ["xls", "xlsx", "csv", "ods"]),
   ("presentations", ["ppt", "pptx", "odp", "key"]),
   ("archives", ["zip", "rar", "tar", "gz", "bz2", "7z", "iso"]),
   ("audio", ["mp3", "wav", "flac", "aac", "ogg", "m4a"]),
   ("video", ["mp4", "mkv", "avi", "mov", "wmv", "webm"]),
   ("code", ["rs", "py", "js", "ts", "java", "c", "cpp", "go", "rb", "php", "html", "css", "json"]),
   ("APPS", ["exe", "msi", "dmg", "app", "deb", "rpm", "apk", "appimage", "sh", "bat"])]

/-- Model of `HashMap::insert` on an association list: replace the binding
when the key is present, append otherwise. -/
def insertKV (m : List (String × String)) (k v : String) : List (String × String) :=
  if m.any (fun kv => decide (kv.1 = k)) then
    m.map (fun kv => if kv.1 = k then (k, v) else kv)
  else m ++ [(k, v)]

/-- Translation of `get_extension_map` (lines 197 to 242): fold the category
groups, inserting every extension with its category. -/
def get_extension_map : List (String × String) :=
  categories.foldl (fun m p => p.2.foldl (fun m e => insertKV m e p.1) m) []

/-- Model of `HashMap::get` on the extension map. -/
def mapLookup (m : List (String × String)) (k : String) : Option String :=
  (m.find? (fun kv => decide (kv.1 = k))).map (fun kv => kv.2)

/-- Model of `str::to_lowercase`, lowering each character. -/
def strToLower (s : String) : String :=
  String.mk (s.data.map Char.toLower)

/-- The lowercased extension the driver computes for a file name
(lines 83 to 87 of `main`). -/
def extLower (name : RName) : String :=
  ((name.extOf).map strToLower).getD ""

/-- The destination category the driver computes for a file
(lines 89 to 93 of `main`). -/
def fileCategoryOf (name : RName) : String :=
  match mapLookup get_extension_map (extLower name) with
  | some cat => cat
  | none => "Others"

/-- The driver state while iterating the directory listing: the filesystem,
the two counters, and the accumulated stdout and stderr lines. -/
structure St where
  fs : FS
  filesCount : Nat
  dirsCount : Nat
  out : List Msg
  errs : List Msg
  deriving DecidableEq

/-- Translation of one iteration of the entry loop of `main`
(lines 62 to 98): classify the entry by its current kind, skip protected and
non-UTF-8 directory names, and relocate otherwise. -/
def stepEntry (dry_run : Bool) (st : St) (name : RName) : St :=
  let path : FPath := [name]
  if st.fs.isDirP path then
    match name.toStr? with
    | some folder_name =>
      if get_protected_folder_names.contains folder_name then st
      else
        let r := process_directory st.fs path [] "Folders" dry_run
        { fs := r.fs
          filesCount := st.filesCount
          dirsCount := st.dirsCount + (if r.acted then 1 else 0)
          out := st.out ++ r.out
          errs := st.errs ++ r.err }
    | none => st
  else
    let category := fileCategoryOf name
    let r := process_file st.fs path [] category dry_run
    { fs := r.fs
      filesCount := st.filesCount + (if r.acted then 1 else 0)
      dirsCount := st.dirsCount
      out := st.out ++ r.out
      errs := st.errs ++ r.err }

/-- The names of the immediate children of the target directory, in listing
order: the snapshot over which the entry loop runs. -/
def topLevel (fs : FS) : List RName :=
  fs.filterMap (fun e => match e.1 with | [n] => some n | _ => none)

/-- The initial driver state over a filesystem. -/
def initSt (fs : FS) : St :=
  ⟨fs, 0, 0, [], []⟩

/-- The entry loop of `main`, folded over a list of entry names. -/
def runEntries (dry_run : Bool) (st : St) (names : List RName) : St :=
  names.foldl (stepEntry dry_run) st

/-- One whole pass of the organizer over a filesystem state. -/
def runOnce (dry_run : Bool) (fs : FS) : St :=
  runEntries dry_run (initSt fs) (topLevel fs)

/-- Translation of `main` (lines 20 to 105): `targetIsDir` models the
`target_dir.is_dir()` check and `readOk` whether `fs::read_dir` succeeds;
the error value is the diagnostic printed to stderr before `exit(1)`. -/
def mainRun (targetIsDir readOk dry_run : Bool) (fs : FS) : Except String St :=
  if !targetIsDir then .error "Error: target is not a valid directory."
  else if !readOk then .error "Error reading directory"
  else .ok (runOnce dry_run fs)

/-- The process exit status of a run. -/
def exitCode (r : Except String St) : Nat :=
  match r with
  | .error _ => 1
  | .ok _ => 0

/-- Rust `format!` left-aligned padding to a minimum width, as in the
`[{:<12}]` specifier: pad on the right with spaces up to the width. -/
def fmtLeftAligned (w : Nat) (s : String) : String :=
  s ++ String.mk (List.replicate (w - s.length) ' ')

/-- The escapes Rust Debug formatting applies to the characters that occur
in ordinary file names; other characters are kept as they are. -/
def rustEscapeChar (c : Char) : List Char :=
  if c = '"' then ['\\', '"']
  else if c = '\\' then ['\\', '\\']
  else if c = '\n' then ['\\', 'n']
  else if c = '\t' then ['\\', 't']
  else if c = '\r' then ['\\', 'r']
  else [c]

/-- Rust Debug formatting of a UTF-8 string: the escaped text between
double quotes. -/
def rustDebugString (s : String) : String :=
  "\"" ++ String.mk ((s.data.map rustEscapeChar).flatten) ++ "\""

/-- Debug formatting of an entry name, as printed by the `{:?}` specifier on
an `OsStr`.  The Debug form of a non-UTF-8 name depends on its raw bytes,
which the model does not carry; it is rendered abstractly from the id. -/
def RName.debugFmt : RName → String
  | .utf8 s => rustDebugString s
  | .raw id _ => "\"" ++ "non-utf8-" ++ toString id ++ "\""

/-- Rendering of each console line to its literal text, following the
`println!` and `eprintln!` calls of the source.  The payload of an OS error
message is not carried by the model and is rendered as a placeholder. -/
def renderMsg : Msg → String
  | .skipFile n c => "[SKIP] " ++ n.debugFmt ++ " (already exists in " ++ c ++ ")"
  | .catFile c n => "[" ++ fmtLeftAligned 12 c ++ "] " ++ n.debugFmt
  | .skipDir n c => "[SKIP DIR] " ++ n.debugFmt ++ " (already exists in " ++ c ++ ")"
  | .catDir c n => "[" ++ fmtLeftAligned 12 c ++ "] (Directory) " ++ n.debugFmt
  | .errCreateDir => "Error creating dir: <os error>"
  | .errMoveFile n => "Error moving " ++ n.debugFmt ++ ": <os error>"
  | .errCreateContainerDir => "Error creating container dir: <os error>"
  | .errMoveDir n => "Error moving directory " ++ n.debugFmt ++ ": <os error>"

/-- The summary footer printed at the end of `main` (lines 101 to 104). -/
def doneLine (files dirs : Nat) : String :=
  "Done. " ++ toString files ++ " files and " ++ toString dirs ++ " folders processed."

/-! Auxiliary notions about filesystem states used by the theorems. -/

/-- The list of existing paths of a filesystem state. -/
def FS.dom (fs : FS) : List FPath :=
  fs.map (fun e => e.1)

/-- The nonempty proper prefixes of a path, shortest first. -/
def properParents (p : FPath) : List FPath :=
  (List.range (p.length - 1)).map (fun i => p.take (i + 1))

/-- Closure of a filesystem state under parents: every nonempty proper
prefix of an existing path exists and is a directory.  Any state reachable
on a real filesystem satisfies this. -/
def ParentCl (fs : FS) : Prop :=
  ∀ e ∈ fs, ∀ q ∈ properParents e.1, (q, true) ∈ fs

/-- A well-formed filesystem state: each path is listed at most once and
parents of existing paths exist as directories. -/
def Wf (fs : FS) : Prop :=
  fs.dom.Nodup ∧ ParentCl fs

instance (fs : FS) : Decidable (ParentCl fs) :=
  inferInstanceAs (Decidable (∀ e ∈ fs, ∀ q ∈ properParents e.1, (q, true) ∈ fs))

instance (fs : FS) : Decidable (Wf fs) :=
  inferInstanceAs (Decidable (_ ∧ _))

/-- Stability of one top-level entry of kind `k`: a loose UTF-8-named
directory has a name collision under "Folders", and a file has a name
collision under its computed category; protected or non-UTF-8 directory
names are stable unconditionally. -/
def StBody (fs : FS) (m : RName) (k : Bool) : Prop :=
  (k = true → ∀ s, m = RName.utf8 s → s ∉ get_protected_folder_names →
     fs.existsP [RName.utf8 "Folders", m] = true) ∧
  (k = false → fs.existsP [RName.utf8 (fileCategoryOf m), m] = true)

/-- A state on which a further non-dry run changes nothing: every top-level
entry is stable. -/
def StableFS (fs : FS) : Prop :=
  ∀ m k, ([m], k) ∈ fs → StBody fs m k

/-- The pairing invariant between the dry-run driver state and the real
driver state over the same initial filesystem, with `Rm` the entries not
yet processed: the dry state never leaves the initial filesystem and never
writes to stderr, the stdout transcripts agree, the counters agree as long
as the real run has not failed, and the real filesystem still agrees with
the initial one on every unprocessed entry and on its destination slots
under the protected containers. -/
def C3Rel (fs0 : FS) (Rm : List RName) (dSt rSt : St) : Prop :=
  dSt.fs = fs0 ∧
  Wf rSt.fs ∧
  dSt.out = rSt.out ∧
  dSt.errs = [] ∧
  (rSt.errs = [] → dSt.filesCount = rSt.filesCount ∧ dSt.dirsCount = rSt.dirsCount) ∧
  ∀ m ∈ Rm, rSt.fs.kindOf [m] = fs0.kindOf [m] ∧ (fs0.kindOf [m]).isSome = true ∧
    ∀ c ∈ get_protected_folder_names,
      rSt.fs.existsP [RName.utf8 c, m] = fs0.existsP [RName.utf8 c, m]

/-- Modelled from the spec (section 4.4): the relocation steps for a
directory in the order the spec lists them, with the destination-exists
check (step 4) placed before the move-container-into-itself guard (step 5).
Written only to compare against `process_directory`, which the source
defines with the two checks in the opposite order. -/
def process_directory_specOrder (fs : FS) (dir_path base_dir : FPath)
    (dest_container : String) (dry_run : Bool) : ProcResult :=
  let container_dir : FPath := base_dir ++ [RName.utf8 dest_container]
  let fs1 := if !dry_run && !(fs.existsP container_dir) then fs.createDirAll container_dir else fs
  let dir_name : RName := dir_path.getLast?.getD (RName.utf8 "")
  let dest_path : FPath := container_dir ++ [dir_name]
  if fs1.existsP dest_path then
    ⟨false, fs1, [Msg.skipDir dir_name dest_container], []⟩
  else if dir_path = container_dir then
    ⟨false, fs1, [], []⟩
  else
    if !dry_run then
      match fs1.rename dir_path dest_path with
      | some fs2 => ⟨true, fs2, [Msg.catDir dest_container dir_name], []⟩
      | none => ⟨false, fs1, [Msg.catDir dest_container dir_name], [Msg.errMoveDir dir_name]⟩
    else ⟨true, fs1, [Msg.catDir dest_container dir_name], []⟩

/-- Modelled from the claim wording of C8: an acted-upon entry line with the
category left-padded (that is, padded on the left) to 12 characters and the
bare entry name. -/
def claimedActedLine (category name : String) : String :=
  "[" ++ String.mk (List.replicate (12 - category.length) ' ') ++ category ++ "] " ++ name

/-- Modelled from the claim wording of C8: a file collision line with the
bare entry name. -/
def claimedSkipLine (name category : String) : String :=
  "[SKIP] " ++ name ++ " (already exists in " ++ category ++ ")"

/-- Modelled from the claim wording of C8: the summary footer. -/
def claimedFooter (files dirs : Nat) : String :=
  "Done. " ++ toString files ++ " files and " ++ toString dirs ++ " folders processed."

/-- Amended format of C8: acted-upon entry lines carry the category
left-aligned (padded on the right) to 12 characters and the Debug-quoted
entry name. -/
def amendedActedLine (category name : String) : String :=
  "[" ++ (category ++ String.mk (List.replicate (12 - category.length) ' ')) ++ "] " ++
    rustDebugString name

/-- Amended format of C8: file collision lines carry the Debug-quoted name. -/
def amendedSkipLine (name category : String) : String :=
  "[SKIP] " ++ rustDebugString name ++ " (already exists in " ++ category ++ ")"

/-- Amended format of C8: directory collision lines carry the Debug-quoted
name. -/
def amendedSkipDirLine (name container : String) : String :=
  "[SKIP DIR] " ++ rustDebugString name ++ " (already exists in " ++ container ++ ")"

/-- Amended format of C8: directory move lines carry the literal
"(Directory) " marker and the Debug-quoted name. -/
def amendedDirLine (container name : String) : String :=
  "[" ++ (container ++ String.mk (List.replicate (12 - container.length) ' ')) ++
    "] (Directory) " ++ rustDebugString name

/-- A state exercising the guard of `process_directory` with an occupied
destination: the container "Folders" holds a subdirectory also named
"Folders". -/
def guardFS : FS :=
  [([RName.utf8 "Folders"], true), ([RName.utf8 "Folders", RName.utf8 "Folders"], true)]

/-- A state on which a real run and a dry run count differently, and on
which two consecutive real runs differ: a loose directory processed while a
regular file occupies the name "Folders". -/
def cexFS : FS :=
  [([RName.utf8 "X"], true), ([RName.utf8 "Folders"], false)]

/-- A state with an occupied file destination: "documents" already holds a
"report.txt" and a loose "report.txt" sits at the top level. -/
def skipFS : FS :=
  [([RName.utf8 "documents"], true),
   ([RName.utf8 "documents", RName.utf8 "report.txt"], false),
   ([RName.utf8 "report.txt"], false)]

/-- A state with an occupied directory destination: "Folders" already holds
a "my-project" and a loose directory "my-project" sits at the top level. -/
def skipDirFS : FS :=
  [([RName.utf8 "Folders"], true),
   ([RName.utf8 "Folders", RName.utf8 "my-project"], true),
   ([RName.utf8 "my-project"], true)]

/-! Basic lemmas about the filesystem model. -/

theorem kindOf_cons (e : FPath × Bool) (fs : FS) (p : FPath) :
    FS.kindOf (e :: fs) p = if e.1 = p then some e.2 else FS.kindOf fs p := by
  by_cases h : e.1 = p
  · simp [FS.kindOf, List.find?_cons_of_pos, h]
  · simp [FS.kindOf, List.find?_cons_of_neg, h]

theorem mem_of_kindOf {fs : FS} {p : FPath} {k : Bool} (h : fs.kindOf p = some k) :
    (p, k) ∈ fs := by
  unfold FS.kindOf at h
  cases hf : fs.find? (fun e => decide (e.1 = p)) with
  | none => simp [hf] at h
  | some e =>
    have hm := List.mem_of_find?_eq_some hf
    have hp := List.find?_some hf
    simp [hf] at h
    simp at hp
    obtain ⟨q, b⟩ := e
    simp at hp h
    rw [hp, h] at hm
    exact hm

theorem kindOf_of_mem {fs : FS} (hn : fs.dom.Nodup) {p : FPath} {k : Bool}
    (h : (p, k) ∈ fs) : fs.kindOf p = some k := by
  induction fs with
  | nil => simp at h
  | cons e t ih =>
    rw [kindOf_cons]
    rcases List.mem_cons.1 h with h1 | h1
    · simp [← h1]
    · have hn2 : (e.1 :: FS.dom t).Nodup := by
        rw [FS.dom, List.map_cons] at hn
        exact hn
      have hne : e.1 ≠ p := by
        intro he
        have hp : p ∈ FS.dom t := List.mem_map_of_mem (fun x => x.1) h1
        exact (List.nodup_cons.1 hn2).1 (he ▸ hp)
      simp [hne]
      exact ih (List.nodup_cons.1 hn2).2 h1

theorem existsP_false_iff {fs : FS} {p : FPath} :
    fs.existsP p = false ↔ ∀ e ∈ fs, e.1 ≠ p := by
  unfold FS.existsP FS.kindOf
  cases hf : fs.find? (fun e => decide (e.1 = p)) with
  | none =>
    simp only [Option.map_none', Option.isSome_none, true_iff]
    intro e he
    have h2 := List.find?_eq_none.1 hf e he
    simpa using h2
  | some e =>
    simp only [Option.map_some', Option.isSome_some, Bool.true_eq_false, false_iff, not_forall]
    refine ⟨e, List.mem_of_find?_eq_some hf, ?_⟩
    have := List.find?_some hf
    simpa using this

theorem existsP_true_iff {fs : FS} {p : FPath} :
    fs.existsP p = true ↔ ∃ k, (p, k) ∈ fs := by
  constructor
  · intro h
    unfold FS.existsP at h
    cases hk : fs.kindOf p with
    | none => rw [hk] at h; simp at h
    | some k => exact ⟨k, mem_of_kindOf hk⟩
  · intro ⟨k, hk⟩
    cases he : fs.existsP p with
    | false => exact absurd rfl (existsP_false_iff.1 he (p, k) hk)
    | true => rfl

theorem existsP_of_kindOf {fs : FS} {p : FPath} {k : Bool} (h : fs.kindOf p = some k) :
    fs.existsP p = true := by
  unfold FS.existsP
  rw [h]
  rfl

theorem kindOf_append (fs fs2 : FS) (p : FPath) :
    FS.kindOf (fs ++ fs2) p = (fs.kindOf p).or (fs2.kindOf p) := by
  cases hf : fs.find? (fun e => decide (e.1 = p)) <;>
    simp [FS.kindOf, List.find?_append, hf]

theorem kindOf_single {q : FPath} {b : Bool} {p : FPath} :
    FS.kindOf [(q, b)] p = if q = p then some b else none := by
  rw [kindOf_cons]
  rfl

theorem kindOf_append_single_ne {fs : FS} {q : FPath} {b : Bool} {p : FPath} (h : p ≠ q) :
    FS.kindOf (fs ++ [(q, b)]) p = fs.kindOf p := by
  rw [kindOf_append, kindOf_single]
  rw [if_neg (fun hh => h hh.symm)]
  cases fs.kindOf p <;> rfl

theorem existsP_append_single {fs : FS} {q : FPath} {b : Bool} {p : FPath} :
    FS.existsP (fs ++ [(q, b)]) p = (fs.existsP p || decide (p = q)) := by
  by_cases h : p = q
  · subst h
    rw [FS.existsP, kindOf_append, kindOf_single, if_pos rfl]
    cases hf : fs.kindOf p <;> simp [FS.existsP, hf]
  · rw [FS.existsP, kindOf_append_single_ne h, FS.existsP]
    simp [h]

theorem isPre_iff {p q : FPath} : FPath.isPre p q = true ↔ p <+: q := by
  simp [FPath.isPre]

theorem createDirAll_single (fs : FS) (x : RName) :
    fs.createDirAll [x] = if fs.existsP [x] then fs else fs ++ [([x], true)] := rfl

theorem properParents_single (x : RName) : properParents [x] = [] := rfl

theorem properParents_pair (a b : RName) : properParents [a, b] = [[a]] := rfl

theorem take_one_of_pre {q : FPath} {a : RName} {t : FPath} (h : q <+: a :: t) (hl : q.length = 1) :
    q = [a] := by
  obtain ⟨r, hr⟩ := h
  cases q with
  | nil => simp at hl
  | cons x xs =>
    cases xs with
    | nil => simp at hr; exact congrArg (fun y => [y]) hr.1
    | cons y ys => simp at hl

theorem mem_properParents_iff {q p : FPath} :
    q ∈ properParents p ↔ q <+: p ∧ q ≠ [] ∧ q.length < p.length := by
  unfold properParents
  simp only [List.mem_map, List.mem_range]
  constructor
  · rintro ⟨i, hi, rfl⟩
    refine ⟨List.take_prefix _ _, ?_, ?_⟩
    · have : (p.take (i + 1)).length = i + 1 := by
        rw [List.length_take]
        omega
      intro hq
      rw [hq] at this
      simp at this
    · rw [List.length_take]
      omega
  · rintro ⟨hpre, hne, hlt⟩
    have hpos : 0 < q.length := List.length_pos.2 hne
    refine ⟨q.length - 1, by omega, ?_⟩
    have h1 : q.length - 1 + 1 = q.length := by
      cases q with
      | nil => exact absurd rfl hne
      | cons x xs => simp
    rw [h1]
    exact (List.prefix_iff_eq_take.1 hpre).symm

/-! Lemmas about the effect of a rename on path lookups. -/

theorem renFun_eq_of_not_pre {src dst : FPath} {e : FPath × Bool} (h : ¬ src <+: e.1) :
    renFun src dst e = e := by
  unfold renFun
  rw [if_neg (fun hh => h (isPre_iff.1 hh))]

theorem renFun_eq_of_pre {src dst : FPath} {e : FPath × Bool} (h : src <+: e.1) :
    renFun src dst e = (dst ++ e.1.drop src.length, e.2) := by
  unfold renFun
  rw [if_pos (isPre_iff.2 h)]

theorem kindOf_map_ren {fs : FS} {src dst p : FPath} (hs : ¬ src <+: p) (hd : ¬ dst <+: p) :
    FS.kindOf (fs.map (renFun src dst)) p = fs.kindOf p := by
  induction fs with
  | nil => rfl
  | cons e t ih =>
    rw [List.map_cons, kindOf_cons, kindOf_cons]
    by_cases hm : src <+: e.1
    · have hne1 : (renFun src dst e).1 ≠ p := by
        rw [renFun_eq_of_pre hm]
        intro hc
        exact hd (hc ▸ List.prefix_append dst (e.1.drop src.length))
      have hne2 : e.1 ≠ p := fun hc => hs (hc ▸ hm)
      rw [if_neg hne1, if_neg hne2, ih]
    · rw [renFun_eq_of_not_pre hm]
      by_cases hp : e.1 = p
      · rw [if_pos hp, if_pos hp]
      · rw [if_neg hp, if_neg hp, ih]

theorem kindOf_map_ren_src {fs : FS} {src dst : FPath} (hd : ¬ dst <+: src) :
    FS.kindOf (fs.map (renFun src dst)) src = none := by
  induction fs with
  | nil => rfl
  | cons e t ih =>
    rw [List.map_cons, kindOf_cons]
    by_cases hm : src <+: e.1
    · have hne1 : (renFun src dst e).1 ≠ src := by
        rw [renFun_eq_of_pre hm]
        intro hc
        exact hd (hc ▸ List.prefix_append dst (e.1.drop src.length))
      rw [if_neg hne1, ih]
    · have hne2 : (renFun src dst e).1 ≠ src := by
        rw [renFun_eq_of_not_pre hm]
        intro hc
        exact hm (hc ▸ List.prefix_refl src)
      rw [if_neg hne2, ih]

theorem existsP_map_ren_false {fs : FS} {src dst p : FPath} (hd : ¬ dst <+: p)
    (h : fs.existsP p = false) :
    FS.existsP (fs.map (renFun src dst)) p = false := by
  rw [existsP_false_iff] at h ⊢
  intro e2 he2
  obtain ⟨e, he, rfl⟩ := List.mem_map.1 he2
  by_cases hm : src <+: e.1
  · rw [renFun_eq_of_pre hm]
    intro hc
    exact hd (hc ▸ List.prefix_append dst (e.1.drop src.length))
  · rw [renFun_eq_of_not_pre hm]
    exact h e he

theorem renamePre_pair_iff {fs : FS} {n d m : RName} :
    fs.renamePre [n] [d, m] = true ↔
      (fs.kindOf [n]).isSome = true ∧ fs.kindOf [d] = some true ∧
        fs.existsP [d, m] = false ∧ n ≠ d := by
  unfold FS.renamePre
  have hdl : ([d, m] : FPath).dropLast = [d] := rfl
  rw [hdl]
  have hpre : FPath.isPre [n] [d, m] = decide (n = d) := by
    by_cases h : n = d
    · subst h
      simp [FPath.isPre, List.cons_prefix_cons]
    · simp [FPath.isPre, List.cons_prefix_cons, h]
  rw [hpre]
  have hne : (decide (([n] : FPath) = [d, m])) = false := by simp
  rw [hne]
  by_cases h : n = d
  · simp [h]
  · simp [h]
    tauto

theorem rename_eq_some_iff {fs fs2 : FS} {src dst : FPath} :
    fs.rename src dst = some fs2 ↔
      fs.renamePre src dst = true ∧ fs2 = fs.map (renFun src dst) := by
  unfold FS.rename
  by_cases h : fs.renamePre src dst = true
  · rw [if_pos h]
    constructor
    · intro he
      exact ⟨h, (Option.some.injEq _ _ ▸ he).symm⟩
    · rintro ⟨_, rfl⟩
      rfl
  · rw [if_neg h]
    constructor
    · intro he
      exact absurd he (by simp)
    · rintro ⟨h2, _⟩
      exact absurd h2 h

theorem rename_eq_none_iff {fs : FS} {src dst : FPath} :
    fs.rename src dst = none ↔ fs.renamePre src dst = false := by
  unfold FS.rename
  by_cases h : fs.renamePre src dst = true
  · simp [h]
  · simp [h, Bool.eq_false_iff.2 h]

/-! Preservation of well-formedness by the filesystem operations. -/

theorem wf_append_dir {fs : FS} {x : RName} (hwf : Wf fs) (h : fs.existsP [x] = false) :
    Wf (fs ++ [([x], true)]) := by
  obtain ⟨hn, hp⟩ := hwf
  constructor
  · rw [FS.dom, List.map_append]
    rw [List.nodup_append]
    refine ⟨hn, List.nodup_singleton _, ?_⟩
    intro p hp1 hp2
    simp at hp2
    obtain ⟨e, he, he1⟩ := List.mem_map.1 hp1
    exact existsP_false_iff.1 h e he (he1.trans hp2)
  · intro e he q hq
    rcases List.mem_append.1 he with h1 | h1
    · exact List.mem_append_left _ (hp e h1 q hq)
    · simp at h1
      rw [h1] at hq
      rw [properParents_single] at hq
      exact absurd hq (List.not_mem_nil q)

theorem mem_dom_iff {fs : FS} {p : FPath} : p ∈ FS.dom fs ↔ ∃ k, (p, k) ∈ fs := by
  unfold FS.dom
  constructor
  · intro h
    obtain ⟨e, he, hh⟩ := List.mem_map.1 h
    exact ⟨e.2, by rw [← hh]; exact he⟩
  · rintro ⟨k, hk⟩
    exact List.mem_map_of_mem _ hk

theorem single_pre_iff {n : RName} {p : FPath} : ([n] : FPath) <+: p ↔ ∃ t, p = n :: t := by
  constructor
  · rintro ⟨t, rfl⟩
    exact ⟨t, rfl⟩
  · rintro ⟨t, rfl⟩
    exact ⟨t, rfl⟩

theorem wf_rename_pair {fs : FS} {n d : RName} (hwf : Wf fs)
    (hdir : fs.kindOf [d] = some true) (hnex : fs.existsP [d, n] = false) (hnd : n ≠ d) :
    Wf (fs.map (renFun [n] [d, n])) := by
  obtain ⟨hn, hpc⟩ := hwf
  have hmem_dn : ∀ t : FPath, t ≠ [] → ∀ q ∈ FS.dom fs, q ≠ ([d, n] : FPath) ++ t := by
    intro t ht q hq hcontra
    obtain ⟨k, hk⟩ := mem_dom_iff.1 hq
    have hpp : ([d, n] : FPath) ∈ properParents q := by
      rw [mem_properParents_iff]
      subst hcontra
      refine ⟨List.prefix_append _ _, by simp, ?_⟩
      simp [List.length_append]
      exact List.length_pos.2 ht
    have := hpc (q, k) hk [d, n] hpp
    rw [existsP_false_iff] at hnex
    exact hnex ([d, n], true) this rfl
  constructor
  · have hdom : FS.dom (fs.map (renFun [n] [d, n])) =
        (FS.dom fs).map (fun p => if FPath.isPre [n] p then ([d, n] : FPath) ++ p.drop 1 else p) := by
      unfold FS.dom renFun
      rw [List.map_map, List.map_map]
      congr 1
      funext e
      by_cases h : FPath.isPre [n] e.1
      · simp [Function.comp, h]
      · simp [Function.comp, h]
    rw [hdom]
    refine List.Nodup.map_on ?_ hn
    intro p hp q hq heq
    by_cases h1 : FPath.isPre [n] p <;> by_cases h2 : FPath.isPre [n] q
    · rw [if_pos h1, if_pos h2] at heq
      obtain ⟨t1, rfl⟩ := single_pre_iff.1 (isPre_iff.1 h1)
      obtain ⟨t2, rfl⟩ := single_pre_iff.1 (isPre_iff.1 h2)
      simp at heq
      rw [heq]
    · rw [if_pos h1, if_neg h2] at heq
      obtain ⟨t1, rfl⟩ := single_pre_iff.1 (isPre_iff.1 h1)
      simp at heq
      by_cases ht : t1 = []
      · subst ht
        rw [← heq] at hq
        obtain ⟨k, hk⟩ := mem_dom_iff.1 hq
        rw [existsP_false_iff] at hnex
        exact absurd rfl (hnex ([d, n], k) hk)
      · exact absurd heq.symm (hmem_dn t1 ht q hq)
    · rw [if_neg h1, if_pos h2] at heq
      obtain ⟨t2, rfl⟩ := single_pre_iff.1 (isPre_iff.1 h2)
      simp at heq
      by_cases ht : t2 = []
      · subst ht
        rw [heq] at hp
        obtain ⟨k, hk⟩ := mem_dom_iff.1 hp
        rw [existsP_false_iff] at hnex
        exact absurd rfl (hnex ([d, n], k) hk)
      · exact absurd heq (hmem_dn t2 ht p hp)
    · rw [if_neg h1, if_neg h2] at heq
      exact heq
  · intro e2 he2 q hq
    obtain ⟨e, he, rfl⟩ := List.mem_map.1 he2
    by_cases hm : ([n] : FPath) <+: e.1
    · obtain ⟨t, hte⟩ := single_pre_iff.1 hm
      rw [renFun_eq_of_pre hm, hte] at hq
      simp only [List.length_cons, List.length_nil, List.drop_succ_cons,
        List.drop_zero, List.cons_append, List.nil_append] at hq
      rw [mem_properParents_iff] at hq
      obtain ⟨hqpre, hqne, hqlen⟩ := hq
      by_cases hl : q.length = 1
      · have hqd : q = [d] := take_one_of_pre hqpre hl
        subst hqd
        have hmem : (([d] : FPath), true) ∈ fs := mem_of_kindOf hdir
        have hunmoved : ¬ ([n] : FPath) <+: [d] := by
          rw [single_pre_iff]
          rintro ⟨t2, ht2⟩
          simp at ht2
          exact hnd ht2.1.symm
        have hre := @renFun_eq_of_not_pre [n] [d, n] (([d] : FPath), true) hunmoved
        exact hre ▸ List.mem_map_of_mem _ hmem
      · have hl2 : 2 ≤ q.length := by
          have := List.length_pos.2 hqne
          omega
        obtain ⟨x, q1, rfl⟩ : ∃ x q1, q = x :: q1 := by
          cases q with
          | nil => exact absurd rfl hqne
          | cons x q1 => exact ⟨x, q1, rfl⟩
        rw [List.cons_prefix_cons] at hqpre
        obtain ⟨hx, hq1pre⟩ := hqpre
        have hx2 : d = x := hx.symm
        subst hx2
        obtain ⟨y, q2, rfl⟩ : ∃ y q2, q1 = y :: q2 := by
          cases q1 with
          | nil => simp at hl2
          | cons y q2 => exact ⟨y, q2, rfl⟩
        rw [List.cons_prefix_cons] at hq1pre
        obtain ⟨hy, hq2pre⟩ := hq1pre
        have hy2 : n = y := hy.symm
        subst hy2
        have hsrcmem : (([n] : FPath) ++ q2, true) ∈ fs := by
          by_cases hq2 : q2 = []
          · subst hq2
            have htne : t ≠ [] := by
              intro hc
              subst hc
              simp at hqlen
            refine hpc e he [n] ?_
            rw [mem_properParents_iff, hte]
            have hlt : (1 : Nat) < (n :: t).length := by
              simp
              exact List.length_pos.2 htne
            exact ⟨⟨t, rfl⟩, by simp, hlt⟩
          · refine hpc e he ([n] ++ q2) ?_
            rw [mem_properParents_iff, hte]
            refine ⟨?_, by simp, ?_⟩
            · obtain ⟨r, hr⟩ := hq2pre
              exact ⟨r, by simp [hr]⟩
            · simp at hqlen ⊢
              omega
        have himg : renFun [n] [d, n] (([n] : FPath) ++ q2, true) = (d :: n :: q2, true) := by
          rw [renFun_eq_of_pre (List.prefix_append _ _)]
          simp
        exact himg ▸ List.mem_map_of_mem _ hsrcmem
    · rw [renFun_eq_of_not_pre hm] at hq
      have hqmem : (q, true) ∈ fs := hpc e he q hq
      have hunmoved : ¬ ([n] : FPath) <+: q := by
        intro hc
        rw [mem_properParents_iff] at hq
        exact hm (hc.trans hq.1)
      have := @renFun_eq_of_not_pre [n] [d, n] (q, true) hunmoved
      exact this ▸ List.mem_map_of_mem _ hqmem

/-! Branch characterization of the two relocation procedures when invoked
by the driver: the entry path is a single component and the base directory
is the target itself. -/

theorem process_file_dry (fs : FS) (n : RName) (c : String) :
    process_file fs [n] [] c true =
      if fs.existsP [RName.utf8 c, n] then ⟨false, fs, [Msg.skipFile n c], []⟩
      else ⟨true, fs, [Msg.catFile c n], []⟩ := by
  unfold process_file
  simp

theorem process_file_real_noCreate {fs : FS} {n : RName} {c : String}
    (h : fs.existsP [RName.utf8 c] = true) :
    process_file fs [n] [] c false =
      if fs.existsP [RName.utf8 c, n] then ⟨false, fs, [Msg.skipFile n c], []⟩
      else match fs.rename [n] [RName.utf8 c, n] with
        | some fs2 => ⟨true, fs2, [Msg.catFile c n], []⟩
        | none => ⟨false, fs, [Msg.catFile c n], [Msg.errMoveFile n]⟩ := by
  unfold process_file
  simp [h]

theorem process_file_real_create {fs : FS} {n : RName} {c : String}
    (h : fs.existsP [RName.utf8 c] = false) :
    process_file fs [n] [] c false =
      if fs.existsP [RName.utf8 c, n] then
        ⟨false, fs ++ [([RName.utf8 c], true)], [Msg.skipFile n c], []⟩
      else match (fs ++ [([RName.utf8 c], true)]).rename [n] [RName.utf8 c, n] with
        | some fs2 => ⟨true, fs2, [Msg.catFile c n], []⟩
        | none => ⟨false, fs ++ [([RName.utf8 c], true)], [Msg.catFile c n],
            [Msg.errMoveFile n]⟩ := by
  unfold process_file
  have hex : FS.existsP (fs ++ [([RName.utf8 c], true)]) [RName.utf8 c, n] =
      fs.existsP [RName.utf8 c, n] := by
    rw [existsP_append_single]
    simp
  simp [h, FS.createDirAll, prefsOf, hex]

theorem process_directory_dry {fs : FS} {n : RName} {c : String}
    (hg : ([n] : FPath) ≠ [RName.utf8 c]) :
    process_directory fs [n] [] c true =
      if fs.existsP [RName.utf8 c, n] then ⟨false, fs, [Msg.skipDir n c], []⟩
      else ⟨true, fs, [Msg.catDir c n], []⟩ := by
  unfold process_directory
  simp [hg]

theorem process_directory_real_noCreate {fs : FS} {n : RName} {c : String}
    (h : fs.existsP [RName.utf8 c] = true) (hg : ([n] : FPath) ≠ [RName.utf8 c]) :
    process_directory fs [n] [] c false =
      if fs.existsP [RName.utf8 c, n] then ⟨false, fs, [Msg.skipDir n c], []⟩
      else match fs.rename [n] [RName.utf8 c, n] with
        | some fs2 => ⟨true, fs2, [Msg.catDir c n], []⟩
        | none => ⟨false, fs, [Msg.catDir c n], [Msg.errMoveDir n]⟩ := by
  unfold process_directory
  simp [h, hg]

theorem process_directory_real_create {fs : FS} {n : RName} {c : String}
    (h : fs.existsP [RName.utf8 c] = false) (hg : ([n] : FPath) ≠ [RName.utf8 c]) :
    process_directory fs [n] [] c false =
      if fs.existsP [RName.utf8 c, n] then
        ⟨false, fs ++ [([RName.utf8 c], true)], [Msg.skipDir n c], []⟩
      else match (fs ++ [([RName.utf8 c], true)]).rename [n] [RName.utf8 c, n] with
        | some fs2 => ⟨true, fs2, [Msg.catDir c n], []⟩
        | none => ⟨false, fs ++ [([RName.utf8 c], true)], [Msg.catDir c n],
            [Msg.errMoveDir n]⟩ := by
  unfold process_directory
  have hex : FS.existsP (fs ++ [([RName.utf8 c], true)]) [RName.utf8 c, n] =
      fs.existsP [RName.utf8 c, n] := by
    rw [existsP_append_single]
    simp
  simp [h, hg, FS.createDirAll, prefsOf, hex]

/-! Lemmas about the static tables. -/

theorem mapLookup_values_protected {k c : String}
    (h : mapLookup get_extension_map k = some c) :
    c ∈ get_protected_folder_names ∧ c ≠ "Others" := by
  have hall : get_extension_map.all
      (fun kv => decide (kv.2 ∈ get_protected_folder_names) && decide (kv.2 ≠ "Others")) = true := by
    decide
  unfold mapLookup at h
  cases hf : get_extension_map.find? (fun kv => decide (kv.1 = k)) with
  | none => rw [hf] at h; simp at h
  | some kv =>
    rw [hf] at h
    simp at h
    have hmem := List.mem_of_find?_eq_some hf
    have h2 := List.all_eq_true.1 hall kv hmem
    simp at h2
    rw [← h]
    exact h2

theorem fileCategoryOf_mem (name : RName) :
    fileCategoryOf name ∈ get_protected_folder_names := by
  unfold fileCategoryOf
  cases hf : mapLookup get_extension_map (extLower name) with
  | none => decide
  | some c => exact (mapLookup_values_protected hf).1

theorem fileCategoryOf_of_lookup {name : RName} {e cat : String}
    (he : name.extOf = some e)
    (hc : mapLookup get_extension_map (strToLower e) = some cat) :
    fileCategoryOf name = cat := by
  unfold fileCategoryOf extLower
  rw [he]
  simp only [Option.map_some', Option.getD_some]
  rw [hc]

/-! Lemmas about the entry listing and the driver loop. -/

theorem mem_topLevel_iff {fs : FS} {m : RName} :
    m ∈ topLevel fs ↔ ∃ k, ([m], k) ∈ fs := by
  unfold topLevel
  constructor
  · intro h
    obtain ⟨e, he, hm⟩ := List.mem_filterMap.1 h
    obtain ⟨p, k⟩ := e
    match p with
    | [] => simp at hm
    | [n] =>
      simp at hm
      exact ⟨k, by rw [hm] at he; exact he⟩
    | n :: x :: t => simp at hm
  · rintro ⟨k, hk⟩
    exact List.mem_filterMap.2 ⟨([m], k), hk, rfl⟩

theorem topLevel_nodup {fs : FS} (hn : (FS.dom fs).Nodup) : (topLevel fs).Nodup := by
  have heq : topLevel fs =
      (FS.dom fs).filterMap (fun p => match p with | [n] => some n | _ => none) := by
    unfold topLevel FS.dom
    rw [List.filterMap_map]
    rfl
  rw [heq]
  refine List.Nodup.filterMap ?_ hn
  intro p q b hb1 hb2
  match p, q with
  | [x], [y] =>
    simp at hb1 hb2
    rw [hb1, hb2]
  | [], _ => simp at hb1
  | x :: y :: t, _ => simp at hb1
  | [x], [] => simp at hb2
  | [x], y :: z :: t => simp at hb2

theorem contains_iff_mem {s : String} {l : List String} :
    l.contains s = true ↔ s ∈ l := by
  simp [List.contains]

theorem stepEntry_dir_raw {st : St} {dry : Bool} {id : Nat} {e : Option String}
    (h : st.fs.isDirP [RName.raw id e] = true) :
    stepEntry dry st (RName.raw id e) = st := by
  unfold stepEntry
  rw [if_pos h]
  rfl

theorem stepEntry_dir_prot {st : St} {dry : Bool} {s : String}
    (h : st.fs.isDirP [RName.utf8 s] = true)
    (hp : s ∈ get_protected_folder_names) :
    stepEntry dry st (RName.utf8 s) = st := by
  unfold stepEntry
  rw [if_pos h]
  simp only [RName.toStr?]
  rw [if_pos (contains_iff_mem.2 hp)]

theorem stepEntry_dir_loose {st : St} {dry : Bool} {s : String}
    (h : st.fs.isDirP [RName.utf8 s] = true)
    (hp : s ∉ get_protected_folder_names) :
    stepEntry dry st (RName.utf8 s) =
      { fs := (process_directory st.fs [RName.utf8 s] [] "Folders" dry).fs
        filesCount := st.filesCount
        dirsCount := st.dirsCount +
          (if (process_directory st.fs [RName.utf8 s] [] "Folders" dry).acted then 1 else 0)
        out := st.out ++ (process_directory st.fs [RName.utf8 s] [] "Folders" dry).out
        errs := st.errs ++ (process_directory st.fs [RName.utf8 s] [] "Folders" dry).err } := by
  unfold stepEntry
  rw [if_pos h]
  simp only [RName.toStr?]
  rw [if_neg (fun hc => hp (contains_iff_mem.1 hc))]

theorem stepEntry_file {st : St} {dry : Bool} {n : RName}
    (h : st.fs.isDirP [n] = false) :
    stepEntry dry st n =
      { fs := (process_file st.fs [n] [] (fileCategoryOf n) dry).fs
        filesCount := st.filesCount +
          (if (process_file st.fs [n] [] (fileCategoryOf n) dry).acted then 1 else 0)
        dirsCount := st.dirsCount
        out := st.out ++ (process_file st.fs [n] [] (fileCategoryOf n) dry).out
        errs := st.errs ++ (process_file st.fs [n] [] (fileCategoryOf n) dry).err } := by
  unfold stepEntry
  rw [if_neg (by rw [h]; simp)]

/-! Bridges between the path lookup notions, and small prefix facts. -/

theorem isDirP_true_iff {fs : FS} {p : FPath} :
    fs.isDirP p = true ↔ fs.kindOf p = some true := by
  unfold FS.isDirP
  cases h : fs.kindOf p with
  | none => simp
  | some b => simp

theorem existsP_false_iff_kindOf {fs : FS} {p : FPath} :
    fs.existsP p = false ↔ fs.kindOf p = none := by
  unfold FS.existsP
  cases h : fs.kindOf p <;> simp

theorem not_single_pre_single {n m : RName} (h : n ≠ m) : ¬ ([n] : FPath) <+: [m] := by
  rw [List.cons_prefix_cons]
  rintro ⟨h1, -⟩
  exact h h1

theorem single_pre_pair_iff {n a b : RName} : ([n] : FPath) <+: [a, b] ↔ n = a := by
  rw [List.cons_prefix_cons]
  simp

theorem not_pair_pre_single {a b m : RName} : ¬ ([a, b] : FPath) <+: [m] := by
  rw [List.cons_prefix_cons]
  rintro ⟨-, h2⟩
  simp at h2

theorem pair_pre_pair_iff {a b c d : RName} :
    ([a, b] : FPath) <+: [c, d] ↔ a = c ∧ b = d := by
  rw [List.cons_prefix_cons, List.cons_prefix_cons]
  simp

theorem child_parent_dir {fs : FS} (hpc : ParentCl fs) {a b : RName} {k : Bool}
    (h : ([a, b], k) ∈ fs) : ([a], true) ∈ fs := by
  refine hpc _ h [a] ?_
  rw [properParents_pair]
  exact List.mem_singleton.2 rfl

theorem existsP_child_false {fs : FS} (hpc : ParentCl fs) {a b : RName}
    (h : fs.existsP [a] = false) : fs.existsP [a, b] = false := by
  cases he : fs.existsP [a, b] with
  | false => rfl
  | true =>
    obtain ⟨k, hk⟩ := existsP_true_iff.1 he
    have := child_parent_dir hpc hk
    rw [existsP_false_iff] at h
    exact absurd rfl (h _ this)

theorem parent_dir_of_child {fs : FS} (hn : (FS.dom fs).Nodup) (hpc : ParentCl fs)
    {a b : RName} (hex : fs.existsP [a, b] = true) : fs.kindOf [a] = some true := by
  obtain ⟨k, hk⟩ := existsP_true_iff.1 hex
  exact kindOf_of_mem hn (child_parent_dir hpc hk)

theorem append_singleton_ne {α : Type} {l : List α} {x : α} : l ++ [x] ≠ l := by
  intro h
  have := congrArg List.length h
  simp at this

theorem mem_map_ren_top {fs : FS} {n d m : RName} {k : Bool}
    (h : ([m], k) ∈ fs.map (renFun [n] [d, n])) : ([m], k) ∈ fs ∧ m ≠ n := by
  obtain ⟨e, he, heq⟩ := List.mem_map.1 h
  by_cases hm : ([n] : FPath) <+: e.1
  · exfalso
    rw [renFun_eq_of_pre hm] at heq
    obtain ⟨t, ht⟩ := single_pre_iff.1 hm
    have := congrArg (fun x => x.1.length) heq
    simp [ht] at this
  · rw [renFun_eq_of_not_pre hm] at heq
    rw [heq] at he
    refine ⟨he, ?_⟩
    rintro rfl
    rw [heq] at hm
    exact hm (List.prefix_refl _)

/-! The driver loop as a fold, and monotone growth of the stderr lines. -/

theorem runEntries_nil (dry : Bool) (st : St) : runEntries dry st [] = st := rfl

theorem runEntries_cons (dry : Bool) (st : St) (n : RName) (ns : List RName) :
    runEntries dry st (n :: ns) = runEntries dry (stepEntry dry st n) ns := rfl

theorem stepEntry_errs_ext (dry : Bool) (st : St) (n : RName) :
    ∃ l, (stepEntry dry st n).errs = st.errs ++ l := by
  by_cases h : st.fs.isDirP [n] = true
  · cases n with
    | raw id e => exact ⟨[], by rw [stepEntry_dir_raw h]; simp⟩
    | utf8 s =>
      by_cases hp : s ∈ get_protected_folder_names
      · exact ⟨[], by rw [stepEntry_dir_prot h hp]; simp⟩
      · exact ⟨_, by rw [stepEntry_dir_loose h hp]⟩
  · rw [Bool.not_eq_true] at h
    exact ⟨_, by rw [stepEntry_file h]⟩

theorem runEntries_errs_ext (dry : Bool) (ns : List RName) :
    ∀ st : St, ∃ l, (runEntries dry st ns).errs = st.errs ++ l := by
  induction ns with
  | nil => exact fun st => ⟨[], by simp [runEntries_nil]⟩
  | cons n ns ih =>
    intro st
    obtain ⟨l1, h1⟩ := stepEntry_errs_ext dry st n
    obtain ⟨l2, h2⟩ := ih (stepEntry dry st n)
    exact ⟨l1 ++ l2, by rw [runEntries_cons, h2, h1, List.append_assoc]⟩

/-! Preservation of entry stability by the filesystem operations. -/

theorem stbody_raw {fs : FS} {id : Nat} {e : Option String} :
    StBody fs (RName.raw id e) true := by
  constructor
  · intro _ s hs
    exact absurd hs (by simp)
  · intro h
    exact absurd h (by simp)

theorem stbody_protected_dir {fs : FS} {cstr : String}
    (h : cstr ∈ get_protected_folder_names) : StBody fs (RName.utf8 cstr) true := by
  constructor
  · intro _ s hs hnp
    rw [RName.utf8.injEq] at hs
    exact absurd (hs ▸ h) hnp
  · intro hk
    exact absurd hk (by simp)

theorem stbody_append_dir {fs : FS} {x m : RName} {k : Bool} (hold : StBody fs m k) :
    StBody (fs ++ [([x], true)]) m k := by
  have hpres : ∀ c' : RName, FS.existsP (fs ++ [([x], true)]) [c', m] = fs.existsP [c', m] := by
    intro c'
    unfold FS.existsP
    rw [kindOf_append_single_ne (by simp)]
  constructor
  · intro hk s hs hnp
    rw [hpres]
    exact hold.1 hk s hs hnp
  · intro hk
    rw [hpres]
    exact hold.2 hk

theorem stbody_preserved_map {fs : FS} {n d m : RName} {k : Bool}
    (hsafe : ∀ (m' : RName) (c' : String), c' ∈ get_protected_folder_names →
       fs.existsP [RName.utf8 c', m'] = true → n ≠ RName.utf8 c')
    (hmn : m ≠ n)
    (hold : StBody fs m k) :
    StBody (fs.map (renFun [n] [d, n])) m k := by
  have hpres : ∀ c' : String, c' ∈ get_protected_folder_names →
      fs.existsP [RName.utf8 c', m] = true →
      FS.existsP (fs.map (renFun [n] [d, n])) [RName.utf8 c', m] = true := by
    intro c' hc' hex
    have hnc := hsafe m c' hc' hex
    have h1 : ¬ ([n] : FPath) <+: [RName.utf8 c', m] := by
      rw [single_pre_pair_iff]
      exact hnc
    have h2 : ¬ ([d, n] : FPath) <+: [RName.utf8 c', m] := by
      rw [pair_pre_pair_iff]
      rintro ⟨-, h⟩
      exact hmn h.symm
    unfold FS.existsP
    rw [kindOf_map_ren h1 h2]
    exact hex
  constructor
  · intro hk s hs hnp
    exact hpres "Folders" (by decide) (hold.1 hk s hs hnp)
  · intro hk
    exact hpres (fileCategoryOf m) (fileCategoryOf_mem m) (hold.2 hk)

theorem existsP_sibling_false {fs : FS} (hn2 : (FS.dom fs).Nodup) (hpc : ParentCl fs)
    {a m : RName} (hk : fs.kindOf [a] = some false) : fs.existsP [a, m] = false := by
  cases he : fs.existsP [a, m] with
  | false => rfl
  | true =>
    have := parent_dir_of_child hn2 hpc he
    rw [hk] at this
    simp at this

theorem kind_preserved_map {fs : FS} {n d m : RName} (hmn : m ≠ n) :
    FS.kindOf (fs.map (renFun [n] [d, n])) [m] = fs.kindOf [m] :=
  kindOf_map_ren (not_single_pre_single (fun h => hmn h.symm)) not_pair_pre_single

theorem slot_preserved_map {fs : FS} {n d m : RName}
    (hsafe : ∀ c' : String, c' ∈ get_protected_folder_names →
       n = RName.utf8 c' → fs.existsP [RName.utf8 c', m] = false)
    (hmn : m ≠ n) (c : String) (hc : c ∈ get_protected_folder_names) :
    FS.existsP (fs.map (renFun [n] [d, n])) [RName.utf8 c, m] =
      fs.existsP [RName.utf8 c, m] := by
  have hd2 : ¬ ([d, n] : FPath) <+: [RName.utf8 c, m] := by
    rw [pair_pre_pair_iff]
    rintro ⟨-, h⟩
    exact hmn h.symm
  by_cases hnc : n = RName.utf8 c
  · have hf := hsafe c hc hnc
    rw [hf]
    subst hnc
    exact existsP_map_ren_false hd2 hf
  · rw [FS.existsP, FS.existsP,
      kindOf_map_ren (by rw [single_pre_pair_iff]; exact hnc) hd2]

theorem slot_preserved_append {fs : FS} {x m : RName} (c : String) :
    FS.existsP (fs ++ [([x], true)]) [RName.utf8 c, m] =
      fs.existsP [RName.utf8 c, m] := by
  rw [FS.existsP, FS.existsP, kindOf_append_single_ne (by simp)]

/-- Gluing a paired directory-relocation outcome into the dry-real pairing
invariant. -/
theorem c3rel_glue_dir {fs0 : FS} {Rm : List RName} {dSt rSt : St} {n : RName}
    (hC : C3Rel fs0 (n :: Rm) dSt rSt)
    {rd rr : ProcResult}
    (h1 : rd.fs = fs0) (h2 : rd.out = rr.out) (h3 : rd.err = [])
    (h4 : rr.err = [] → rd.acted = rr.acted)
    (h5 : Wf rr.fs)
    (h6 : ∀ m ∈ Rm, rr.fs.kindOf [m] = rSt.fs.kindOf [m] ∧
            ∀ c ∈ get_protected_folder_names,
              rr.fs.existsP [RName.utf8 c, m] = rSt.fs.existsP [RName.utf8 c, m]) :
    C3Rel fs0 Rm
      { fs := rd.fs, filesCount := dSt.filesCount
        dirsCount := dSt.dirsCount + (if rd.acted then 1 else 0)
        out := dSt.out ++ rd.out, errs := dSt.errs ++ rd.err }
      { fs := rr.fs, filesCount := rSt.filesCount
        dirsCount := rSt.dirsCount + (if rr.acted then 1 else 0)
        out := rSt.out ++ rr.out, errs := rSt.errs ++ rr.err } := by
  obtain ⟨hdfs, hwf, hout, hderr, hcnt, hrm⟩ := hC
  refine ⟨h1, h5, ?_, ?_, ?_, ?_⟩
  · dsimp only
    rw [hout, h2]
  · dsimp only
    rw [hderr, h3]
    rfl
  · dsimp only
    intro h
    obtain ⟨he1, he2⟩ := List.append_eq_nil.1 h
    obtain ⟨hf, hd⟩ := hcnt he1
    rw [hf, hd, h4 he2]
    exact ⟨rfl, rfl⟩
  · intro m hm
    obtain ⟨hk', hks', hslot'⟩ := hrm m (List.mem_cons_of_mem _ hm)
    refine ⟨((h6 m hm).1).trans hk', hks', ?_⟩
    intro c hc
    rw [(h6 m hm).2 c hc, hslot' c hc]

/-- Gluing a paired file-relocation outcome into the dry-real pairing
invariant. -/
theorem c3rel_glue_file {fs0 : FS} {Rm : List RName} {dSt rSt : St} {n : RName}
    (hC : C3Rel fs0 (n :: Rm) dSt rSt)
    {rd rr : ProcResult}
    (h1 : rd.fs = fs0) (h2 : rd.out = rr.out) (h3 : rd.err = [])
    (h4 : rr.err = [] → rd.acted = rr.acted)
    (h5 : Wf rr.fs)
    (h6 : ∀ m ∈ Rm, rr.fs.kindOf [m] = rSt.fs.kindOf [m] ∧
            ∀ c ∈ get_protected_folder_names,
              rr.fs.existsP [RName.utf8 c, m] = rSt.fs.existsP [RName.utf8 c, m]) :
    C3Rel fs0 Rm
      { fs := rd.fs, filesCount := dSt.filesCount + (if rd.acted then 1 else 0)
        dirsCount := dSt.dirsCount
        out := dSt.out ++ rd.out, errs := dSt.errs ++ rd.err }
      { fs := rr.fs, filesCount := rSt.filesCount + (if rr.acted then 1 else 0)
        dirsCount := rSt.dirsCount
        out := rSt.out ++ rr.out, errs := rSt.errs ++ rr.err } := by
  obtain ⟨hdfs, hwf, hout, hderr, hcnt, hrm⟩ := hC
  refine ⟨h1, h5, ?_, ?_, ?_, ?_⟩
  · dsimp only
    rw [hout, h2]
  · dsimp only
    rw [hderr, h3]
    rfl
  · dsimp only
    intro h
    obtain ⟨he1, he2⟩ := List.append_eq_nil.1 h
    obtain ⟨hf, hd⟩ := hcnt he1
    rw [hf, hd, h4 he2]
    exact ⟨rfl, rfl⟩
  · intro m hm
    obtain ⟨hk', hks', hslot'⟩ := hrm m (List.mem_cons_of_mem _ hm)
    refine ⟨((h6 m hm).1).trans hk', hks', ?_⟩
    intro c hc
    rw [(h6 m hm).2 c hc, hslot' c hc]

/-- One paired step preserves the dry-real pairing invariant. -/
theorem c3_step {fs0 : FS} {dSt rSt : St} {n : RName} {Rm : List RName}
    (hnR : n ∉ Rm)
    (hrel : C3Rel fs0 (n :: Rm) dSt rSt) :
    C3Rel fs0 Rm (stepEntry true dSt n) (stepEntry false rSt n) := by
  obtain ⟨hdfs, hwf, hout, hderr, hcnt, hrm⟩ := hrel
  have hrel2 : C3Rel fs0 (n :: Rm) dSt rSt := ⟨hdfs, hwf, hout, hderr, hcnt, hrm⟩
  obtain ⟨hk, hks, hslot⟩ := hrm n (List.mem_cons_self n Rm)
  have hmn : ∀ m ∈ Rm, m ≠ n := fun m hm hc => hnR (hc ▸ hm)
  have hdir_r : rSt.fs.isDirP [n] = fs0.isDirP [n] := by
    unfold FS.isDirP
    rw [hk]
  have hdir_d : dSt.fs.isDirP [n] = fs0.isDirP [n] := by rw [hdfs]
  by_cases hd : fs0.isDirP [n] = true
  · have hdr : rSt.fs.isDirP [n] = true := by rw [hdir_r]; exact hd
    have hdd : dSt.fs.isDirP [n] = true := by rw [hdir_d]; exact hd
    cases n with
    | raw id e =>
      rw [stepEntry_dir_raw hdr, stepEntry_dir_raw hdd]
      exact ⟨hdfs, hwf, hout, hderr, hcnt, fun m hm => hrm m (List.mem_cons_of_mem _ hm)⟩
    | utf8 s =>
      by_cases hp : s ∈ get_protected_folder_names
      · rw [stepEntry_dir_prot hdr hp, stepEntry_dir_prot hdd hp]
        exact ⟨hdfs, hwf, hout, hderr, hcnt, fun m hm => hrm m (List.mem_cons_of_mem _ hm)⟩
      · rw [stepEntry_dir_loose hdr hp, stepEntry_dir_loose hdd hp, hdfs]
        have hg : ([RName.utf8 s] : FPath) ≠ [RName.utf8 "Folders"] := by
          intro hc
          simp at hc
          exact hp (hc ▸ (by decide : "Folders" ∈ get_protected_folder_names))
        have hsf := hslot "Folders" (by decide)
        have hsafeD : ∀ {fsx : FS} (m' : RName) (c' : String),
            c' ∈ get_protected_folder_names → RName.utf8 s = RName.utf8 c' →
            fsx.existsP [RName.utf8 c', m'] = false := by
          intro fsx m' c' hc' hnc
          rw [RName.utf8.injEq] at hnc
          exact absurd (hnc ▸ hc') hp
        rw [process_directory_dry hg]
        by_cases hF : rSt.fs.existsP [RName.utf8 "Folders"] = true
        · rw [process_directory_real_noCreate hF hg]
          by_cases hdest0 : fs0.existsP [RName.utf8 "Folders", RName.utf8 s] = true
          · have hdestr : rSt.fs.existsP [RName.utf8 "Folders", RName.utf8 s] = true := by
              rw [hsf]
              exact hdest0
            rw [if_pos hdest0, if_pos hdestr]
            exact @c3rel_glue_dir fs0 Rm dSt rSt _ hrel2
              ⟨false, fs0, [Msg.skipDir (RName.utf8 s) "Folders"], []⟩
              ⟨false, rSt.fs, [Msg.skipDir (RName.utf8 s) "Folders"], []⟩
              rfl rfl rfl (fun _ => rfl) hwf (fun m hm => ⟨rfl, fun c hc => rfl⟩)
          · have hdr0 : fs0.existsP [RName.utf8 "Folders", RName.utf8 s] = false := by
              rw [Bool.not_eq_true] at hdest0
              exact hdest0
            have hdestr : rSt.fs.existsP [RName.utf8 "Folders", RName.utf8 s] = false := by
              rw [hsf]
              exact hdr0
            have hn1 : ¬ fs0.existsP [RName.utf8 "Folders", RName.utf8 s] = true := by
              rw [hdr0]
              simp
            have hn2 : ¬ rSt.fs.existsP [RName.utf8 "Folders", RName.utf8 s] = true := by
              rw [hdestr]
              simp
            rw [if_neg hn1, if_neg hn2]
            cases hren : FS.rename rSt.fs [RName.utf8 s]
                [RName.utf8 "Folders", RName.utf8 s] with
            | none =>
              exact @c3rel_glue_dir fs0 Rm dSt rSt _ hrel2
                ⟨true, fs0, [Msg.catDir "Folders" (RName.utf8 s)], []⟩
                ⟨false, rSt.fs, [Msg.catDir "Folders" (RName.utf8 s)],
                  [Msg.errMoveDir (RName.utf8 s)]⟩
                rfl rfl rfl (fun h => absurd h (by simp)) hwf
                (fun m hm => ⟨rfl, fun c hc => rfl⟩)
            | some fs2 =>
              obtain ⟨hpre, hfs2⟩ := rename_eq_some_iff.1 hren
              obtain ⟨hsrc, hFdir, hnex, hne⟩ := renamePre_pair_iff.1 hpre
              subst hfs2
              exact @c3rel_glue_dir fs0 Rm dSt rSt _ hrel2
                ⟨true, fs0, [Msg.catDir "Folders" (RName.utf8 s)], []⟩
                ⟨true, List.map (renFun [RName.utf8 s]
                    [RName.utf8 "Folders", RName.utf8 s]) rSt.fs,
                  [Msg.catDir "Folders" (RName.utf8 s)], []⟩
                rfl rfl rfl (fun _ => rfl) (wf_rename_pair hwf hFdir hnex hne)
                (fun m hm => ⟨kind_preserved_map (hmn m hm),
                  fun c hc => slot_preserved_map (hsafeD m) (hmn m hm) c hc⟩)
        · have hFf : rSt.fs.existsP [RName.utf8 "Folders"] = false := by
            rw [Bool.not_eq_true] at hF
            exact hF
          rw [process_directory_real_create hFf hg]
          have hdestr : rSt.fs.existsP [RName.utf8 "Folders", RName.utf8 s] = false :=
            existsP_child_false hwf.2 hFf
          have hdr0 : fs0.existsP [RName.utf8 "Folders", RName.utf8 s] = false := by
            rw [← hsf]
            exact hdestr
          have hn1 : ¬ fs0.existsP [RName.utf8 "Folders", RName.utf8 s] = true := by
            rw [hdr0]
            simp
          have hn2 : ¬ rSt.fs.existsP [RName.utf8 "Folders", RName.utf8 s] = true := by
            rw [hdestr]
            simp
          rw [if_neg hn1, if_neg hn2]
          have hwfb : Wf (rSt.fs ++ [([RName.utf8 "Folders"], true)]) :=
            wf_append_dir hwf hFf
          have hmF : ∀ m ∈ Rm, ([m] : FPath) ≠ [RName.utf8 "Folders"] := by
            intro m hm hc
            obtain ⟨hk2, hks2, -⟩ := hrm m (List.mem_cons_of_mem _ hm)
            rw [← hk2, hc, existsP_false_iff_kindOf.1 hFf] at hks2
            simp at hks2
          have h6b : ∀ m ∈ Rm,
              FS.kindOf (rSt.fs ++ [([RName.utf8 "Folders"], true)]) [m] =
                rSt.fs.kindOf [m] ∧
              ∀ c ∈ get_protected_folder_names,
                FS.existsP (rSt.fs ++ [([RName.utf8 "Folders"], true)])
                    [RName.utf8 c, m] = rSt.fs.existsP [RName.utf8 c, m] :=
            fun m hm => ⟨kindOf_append_single_ne (hmF m hm),
              fun c _ => slot_preserved_append c⟩
          cases hren : FS.rename (rSt.fs ++ [([RName.utf8 "Folders"], true)])
              [RName.utf8 s] [RName.utf8 "Folders", RName.utf8 s] with
          | none =>
            exact @c3rel_glue_dir fs0 Rm dSt rSt _ hrel2
              ⟨true, fs0, [Msg.catDir "Folders" (RName.utf8 s)], []⟩
              ⟨false, rSt.fs ++ [([RName.utf8 "Folders"], true)],
                [Msg.catDir "Folders" (RName.utf8 s)], [Msg.errMoveDir (RName.utf8 s)]⟩
              rfl rfl rfl (fun h => absurd h (by simp)) hwfb h6b
          | some fs2 =>
            obtain ⟨hpre, hfs2⟩ := rename_eq_some_iff.1 hren
            obtain ⟨hsrc, hFdir, hnex, hne⟩ := renamePre_pair_iff.1 hpre
            subst hfs2
            exact @c3rel_glue_dir fs0 Rm dSt rSt _ hrel2
              ⟨true, fs0, [Msg.catDir "Folders" (RName.utf8 s)], []⟩
              ⟨true, List.map (renFun [RName.utf8 s] [RName.utf8 "Folders", RName.utf8 s])
                  (rSt.fs ++ [([RName.utf8 "Folders"], true)]),
                [Msg.catDir "Folders" (RName.utf8 s)], []⟩
              rfl rfl rfl (fun _ => rfl) (wf_rename_pair hwfb hFdir hnex hne)
              (fun m hm => ⟨(kind_preserved_map (hmn m hm)).trans (h6b m hm).1,
                fun c hc => (slot_preserved_map (hsafeD m) (hmn m hm) c hc).trans
                  ((h6b m hm).2 c hc)⟩)
  · have hdf : fs0.isDirP [n] = false := by
      rw [Bool.not_eq_true] at hd
      exact hd
    have hdr : rSt.fs.isDirP [n] = false := by rw [hdir_r]; exact hdf
    have hdd : dSt.fs.isDirP [n] = false := by rw [hdir_d]; exact hdf
    have hk0 : fs0.kindOf [n] = some false := by
      cases hv : fs0.kindOf [n] with
      | none =>
        rw [hv] at hks
        simp at hks
      | some b =>
        cases b with
        | true =>
          have hcontra : fs0.isDirP [n] = true := isDirP_true_iff.2 hv
          rw [hdf] at hcontra
          simp at hcontra
        | false => rfl
    have hkr : rSt.fs.kindOf [n] = some false := by rw [hk, hk0]
    have hsafeF : ∀ (m' : RName) (c' : String), c' ∈ get_protected_folder_names →
        n = RName.utf8 c' → rSt.fs.existsP [RName.utf8 c', m'] = false := by
      intro m' c' _ hnc
      rw [← hnc]
      exact existsP_sibling_false hwf.1 hwf.2 hkr
    have hcmem : fileCategoryOf n ∈ get_protected_folder_names := fileCategoryOf_mem n
    have hcsf := hslot (fileCategoryOf n) hcmem
    rw [stepEntry_file hdr, stepEntry_file hdd, hdfs, process_file_dry]
    by_cases hcd : rSt.fs.existsP [RName.utf8 (fileCategoryOf n)] = true
    · rw [process_file_real_noCreate hcd]
      by_cases hdest0 : fs0.existsP [RName.utf8 (fileCategoryOf n), n] = true
      · have hdestr : rSt.fs.existsP [RName.utf8 (fileCategoryOf n), n] = true := by
          rw [hcsf]
          exact hdest0
        rw [if_pos hdest0, if_pos hdestr]
        exact @c3rel_glue_file fs0 Rm dSt rSt _ hrel2
          ⟨false, fs0, [Msg.skipFile n (fileCategoryOf n)], []⟩
          ⟨false, rSt.fs, [Msg.skipFile n (fileCategoryOf n)], []⟩
          rfl rfl rfl (fun _ => rfl) hwf (fun m hm => ⟨rfl, fun c hc => rfl⟩)
      · have hdr0 : fs0.existsP [RName.utf8 (fileCategoryOf n), n] = false := by
          rw [Bool.not_eq_true] at hdest0
          exact hdest0
        have hdestr : rSt.fs.existsP [RName.utf8 (fileCategoryOf n), n] = false := by
          rw [hcsf]
          exact hdr0
        have hn1 : ¬ fs0.existsP [RName.utf8 (fileCategoryOf n), n] = true := by
          rw [hdr0]
          simp
        have hn2 : ¬ rSt.fs.existsP [RName.utf8 (fileCategoryOf n), n] = true := by
          rw [hdestr]
          simp
        rw [if_neg hn1, if_neg hn2]
        cases hren : FS.rename rSt.fs [n] [RName.utf8 (fileCategoryOf n), n] with
        | none =>
          exact @c3rel_glue_file fs0 Rm dSt rSt _ hrel2
            ⟨true, fs0, [Msg.catFile (fileCategoryOf n) n], []⟩
            ⟨false, rSt.fs, [Msg.catFile (fileCategoryOf n) n], [Msg.errMoveFile n]⟩
            rfl rfl rfl (fun h => absurd h (by simp)) hwf
            (fun m hm => ⟨rfl, fun c hc => rfl⟩)
        | some fs2 =>
          obtain ⟨hpre, hfs2⟩ := rename_eq_some_iff.1 hren
          obtain ⟨hsrc, hcdir, hnex, hne⟩ := renamePre_pair_iff.1 hpre
          subst hfs2
          exact @c3rel_glue_file fs0 Rm dSt rSt _ hrel2
            ⟨true, fs0, [Msg.catFile (fileCategoryOf n) n], []⟩
            ⟨true, List.map (renFun [n] [RName.utf8 (fileCategoryOf n), n]) rSt.fs,
              [Msg.catFile (fileCategoryOf n) n], []⟩
            rfl rfl rfl (fun _ => rfl) (wf_rename_pair hwf hcdir hnex hne)
            (fun m hm => ⟨kind_preserved_map (hmn m hm),
              fun c hc => slot_preserved_map
                (fun c' hc' hnc => hsafeF m c' hc' hnc) (hmn m hm) c hc⟩)
    · have hcdf : rSt.fs.existsP [RName.utf8 (fileCategoryOf n)] = false := by
        rw [Bool.not_eq_true] at hcd
        exact hcd
      rw [process_file_real_create hcdf]
      have hdestr : rSt.fs.existsP [RName.utf8 (fileCategoryOf n), n] = false :=
        existsP_child_false hwf.2 hcdf
      have hdr0 : fs0.existsP [RName.utf8 (fileCategoryOf n), n] = false := by
        rw [← hcsf]
        exact hdestr
      have hn1 : ¬ fs0.existsP [RName.utf8 (fileCategoryOf n), n] = true := by
        rw [hdr0]
        simp
      have hn2 : ¬ rSt.fs.existsP [RName.utf8 (fileCategoryOf n), n] = true := by
        rw [hdestr]
        simp
      rw [if_neg hn1, if_neg hn2]
      have hwfb : Wf (rSt.fs ++ [([RName.utf8 (fileCategoryOf n)], true)]) :=
        wf_append_dir hwf hcdf
      have hmC : ∀ m ∈ Rm, ([m] : FPath) ≠ [RName.utf8 (fileCategoryOf n)] := by
        intro m hm hc
        obtain ⟨hk2, hks2, -⟩ := hrm m (List.mem_cons_of_mem _ hm)
        rw [← hk2, hc, existsP_false_iff_kindOf.1 hcdf] at hks2
        simp at hks2
      have h6b : ∀ m ∈ Rm,
          FS.kindOf (rSt.fs ++ [([RName.utf8 (fileCategoryOf n)], true)]) [m] =
            rSt.fs.kindOf [m] ∧
          ∀ c ∈ get_protected_folder_names,
            FS.existsP (rSt.fs ++ [([RName.utf8 (fileCategoryOf n)], true)])
                [RName.utf8 c, m] = rSt.fs.existsP [RName.utf8 c, m] :=
        fun m hm => ⟨kindOf_append_single_ne (hmC m hm),
          fun c _ => slot_preserved_append c⟩
      have hsafeFb : ∀ (m' : RName) (c' : String), c' ∈ get_protected_folder_names →
          n = RName.utf8 c' →
          FS.existsP (rSt.fs ++ [([RName.utf8 (fileCategoryOf n)], true)])
            [RName.utf8 c', m'] = false := by
        intro m' c' hc' hnc
        rw [slot_preserved_append c']
        exact hsafeF m' c' hc' hnc
      cases hren : FS.rename (rSt.fs ++ [([RName.utf8 (fileCategoryOf n)], true)])
          [n] [RName.utf8 (fileCategoryOf n), n] with
      | none =>
        exact @c3rel_glue_file fs0 Rm dSt rSt _ hrel2
          ⟨true, fs0, [Msg.catFile (fileCategoryOf n) n], []⟩
          ⟨false, rSt.fs ++ [([RName.utf8 (fileCategoryOf n)], true)],
            [Msg.catFile (fileCategoryOf n) n], [Msg.errMoveFile n]⟩
          rfl rfl rfl (fun h => absurd h (by simp)) hwfb h6b
      | some fs2 =>
        obtain ⟨hpre, hfs2⟩ := rename_eq_some_iff.1 hren
        obtain ⟨hsrc, hcdir, hnex, hne⟩ := renamePre_pair_iff.1 hpre
        subst hfs2
        exact @c3rel_glue_file fs0 Rm dSt rSt _ hrel2
          ⟨true, fs0, [Msg.catFile (fileCategoryOf n) n], []⟩
          ⟨true, List.map (renFun [n] [RName.utf8 (fileCategoryOf n), n])
              (rSt.fs ++ [([RName.utf8 (fileCategoryOf n)], true)]),
            [Msg.catFile (fileCategoryOf n) n], []⟩
          rfl rfl rfl (fun _ => rfl) (wf_rename_pair hwfb hcdir hnex hne)
          (fun m hm => ⟨(kind_preserved_map (hmn m hm)).trans (h6b m hm).1,
            fun c hc => (slot_preserved_map
              (fun c' hc' hnc => hsafeFb m c' hc' hnc) (hmn m hm) c hc).trans
              ((h6b m hm).2 c hc)⟩)


/-- The paired fold: the dry-real pairing invariant fully propagates over a
run on distinct entry names. -/
theorem c3_run {fs0 : FS} :
    ∀ (Rm : List RName) (dSt rSt : St), Rm.Nodup →
      C3Rel fs0 Rm dSt rSt →
      C3Rel fs0 [] (runEntries true dSt Rm) (runEntries false rSt Rm) := by
  intro Rm
  induction Rm with
  | nil =>
    intro dSt rSt _ h
    rw [runEntries_nil, runEntries_nil]
    exact h
  | cons n ns ih =>
    intro dSt rSt hnd h
    rw [runEntries_cons, runEntries_cons]
    exact ih _ _ (List.nodup_cons.1 hnd).2 (c3_step (List.nodup_cons.1 hnd).1 h)

/-! One error-free non-dry step preserves the run invariant: well-formed
state, untouched unprocessed entries, and stability of every top-level
entry already dealt with. -/

theorem c6_step {fs0 : FS} {st : St} {n : RName} {Rm : List RName}
    (hwf : Wf st.fs)
    (hkinds : ∀ m ∈ n :: Rm, st.fs.kindOf [m] = fs0.kindOf [m] ∧ (fs0.kindOf [m]).isSome = true)
    (hstable : ∀ m k, ([m], k) ∈ st.fs → m ∉ n :: Rm → StBody st.fs m k)
    (hnR : n ∉ Rm)
    (herr : (stepEntry false st n).errs = st.errs) :
    Wf (stepEntry false st n).fs ∧
    (∀ m ∈ Rm, (stepEntry false st n).fs.kindOf [m] = fs0.kindOf [m]) ∧
    (∀ m k, ([m], k) ∈ (stepEntry false st n).fs → m ∉ Rm →
       StBody (stepEntry false st n).fs m k) := by
  have hkn := hkinds n (List.mem_cons_self n Rm)
  have hnotin : ∀ m : RName, m ≠ n → m ∉ Rm → m ∉ n :: Rm := by
    intro m h1 h2 hc
    rcases List.mem_cons.1 hc with h | h
    · exact h1 h
    · exact h2 h
  by_cases hd : st.fs.isDirP [n] = true
  · have hkdir : st.fs.kindOf [n] = some true := isDirP_true_iff.1 hd
    have hkind_self : ∀ k : Bool, ([n], k) ∈ st.fs → k = true := by
      intro k hm
      have h1 := kindOf_of_mem hwf.1 hm
      rw [hkdir] at h1
      exact (Option.some.inj h1).symm
    cases n with
    | raw id e =>
      rw [stepEntry_dir_raw hd]
      refine ⟨hwf, fun m hm => (hkinds m (List.mem_cons_of_mem _ hm)).1, ?_⟩
      intro m k hm hmR
      by_cases hmn : m = RName.raw id e
      · subst hmn
        rw [hkind_self k hm]
        exact stbody_raw
      · exact hstable m k hm (hnotin m hmn hmR)
    | utf8 s =>
      by_cases hp : s ∈ get_protected_folder_names
      · rw [stepEntry_dir_prot hd hp]
        refine ⟨hwf, fun m hm => (hkinds m (List.mem_cons_of_mem _ hm)).1, ?_⟩
        intro m k hm hmR
        by_cases hmn : m = RName.utf8 s
        · subst hmn
          rw [hkind_self k hm]
          exact stbody_protected_dir hp
        · exact hstable m k hm (hnotin m hmn hmR)
      · rw [stepEntry_dir_loose hd hp] at herr ⊢
        dsimp only at herr ⊢
        have hg : ([RName.utf8 s] : FPath) ≠ [RName.utf8 "Folders"] := by
          intro hc
          simp at hc
          exact hp (hc ▸ (by decide : "Folders" ∈ get_protected_folder_names))
        have hsafe : ∀ (m' : RName) (c' : String), c' ∈ get_protected_folder_names →
            st.fs.existsP [RName.utf8 c', m'] = true → RName.utf8 s ≠ RName.utf8 c' := by
          intro m' c' hc' _ hcontra
          rw [RName.utf8.injEq] at hcontra
          exact hp (hcontra ▸ hc')
        by_cases hF : st.fs.existsP [RName.utf8 "Folders"] = true
        · rw [process_directory_real_noCreate hF hg] at herr ⊢
          by_cases hdest : st.fs.existsP [RName.utf8 "Folders", RName.utf8 s] = true
          · rw [if_pos hdest] at herr ⊢
            dsimp only
            refine ⟨hwf, fun m hm => (hkinds m (List.mem_cons_of_mem _ hm)).1, ?_⟩
            intro m k hm hmR
            by_cases hmn : m = RName.utf8 s
            · subst hmn
              rw [hkind_self k hm]
              constructor
              · intro _ s2 hs2 _
                rw [RName.utf8.injEq] at hs2
                exact hs2 ▸ hdest
              · intro hc
                exact absurd hc (by simp)
            · exact hstable m k hm (hnotin m hmn hmR)
          · rw [if_neg (by rw [Bool.not_eq_true] at hdest; rw [hdest]; simp)] at herr ⊢
            cases hren : FS.rename st.fs [RName.utf8 s]
                [RName.utf8 "Folders", RName.utf8 s] with
            | none =>
              rw [hren] at herr
              simp at herr
            | some fs2 =>
              obtain ⟨hpre, hfs2⟩ := rename_eq_some_iff.1 hren
              obtain ⟨hsrc, hFdir, hnex, hne⟩ := renamePre_pair_iff.1 hpre
              dsimp only
              subst hfs2
              refine ⟨wf_rename_pair hwf hFdir hnex hne, ?_, ?_⟩
              · intro m hm
                have hmn : RName.utf8 s ≠ m := fun hc => hnR (hc ▸ hm)
                rw [kindOf_map_ren (not_single_pre_single hmn) not_pair_pre_single]
                exact (hkinds m (List.mem_cons_of_mem _ hm)).1
              · intro m k hm hmR
                obtain ⟨hmem, hmn⟩ := mem_map_ren_top hm
                exact stbody_preserved_map hsafe hmn
                  (hstable m k hmem (hnotin m hmn hmR))
        · have hFf : st.fs.existsP [RName.utf8 "Folders"] = false := by
            rw [Bool.not_eq_true] at hF
            exact hF
          rw [process_directory_real_create hFf hg] at herr ⊢
          have hdest : st.fs.existsP [RName.utf8 "Folders", RName.utf8 s] = false :=
            existsP_child_false hwf.2 hFf
          rw [if_neg (by rw [hdest]; simp)] at herr ⊢
          have hwfb : Wf (st.fs ++ [([RName.utf8 "Folders"], true)]) :=
            wf_append_dir hwf hFf
          cases hren : FS.rename (st.fs ++ [([RName.utf8 "Folders"], true)])
              [RName.utf8 s] [RName.utf8 "Folders", RName.utf8 s] with
          | none =>
            rw [hren] at herr
            simp at herr
          | some fs2 =>
            obtain ⟨hpre, hfs2⟩ := rename_eq_some_iff.1 hren
            obtain ⟨hsrc, hFdir, hnex, hne⟩ := renamePre_pair_iff.1 hpre
            dsimp only
            subst hfs2
            have hmF : ∀ m ∈ Rm, ([m] : FPath) ≠ [RName.utf8 "Folders"] := by
              intro m hm hc
              have h1 := (hkinds m (List.mem_cons_of_mem _ hm)).1
              have h2 := (hkinds m (List.mem_cons_of_mem _ hm)).2
              rw [← h1, hc] at h2
              rw [existsP_false_iff_kindOf.1 hFf] at h2
              simp at h2
            refine ⟨wf_rename_pair hwfb hFdir hnex hne, ?_, ?_⟩
            · intro m hm
              have hmn : RName.utf8 s ≠ m := fun hc => hnR (hc ▸ hm)
              rw [kindOf_map_ren (not_single_pre_single hmn) not_pair_pre_single]
              rw [kindOf_append_single_ne (hmF m hm)]
              exact (hkinds m (List.mem_cons_of_mem _ hm)).1
            · intro m k hm hmR
              obtain ⟨hmem, hmn⟩ := mem_map_ren_top hm
              have hsafeb : ∀ (m' : RName) (c' : String), c' ∈ get_protected_folder_names →
                  FS.existsP (st.fs ++ [([RName.utf8 "Folders"], true)])
                    [RName.utf8 c', m'] = true → RName.utf8 s ≠ RName.utf8 c' := by
                intro m' c' hc' _ hcontra
                rw [RName.utf8.injEq] at hcontra
                exact hp (hcontra ▸ hc')
              rcases List.mem_append.1 hmem with hmem2 | hmem2
              · refine stbody_preserved_map hsafeb hmn (stbody_append_dir ?_)
                exact hstable m k hmem2 (hnotin m hmn hmR)
              · simp at hmem2
                rw [hmem2.1, hmem2.2]
                exact stbody_protected_dir (by decide)
  · rw [Bool.not_eq_true] at hd
    have hkf : st.fs.kindOf [n] = some false := by
      obtain ⟨heq, hsome⟩ := hkn
      cases hv : st.fs.kindOf [n] with
      | none =>
        rw [hv] at heq
        rw [← heq] at hsome
        simp at hsome
      | some b =>
        cases b with
        | true => exact absurd (isDirP_true_iff.2 hv) (by rw [hd]; simp)
        | false => rfl
    have hkind_self : ∀ k : Bool, ([n], k) ∈ st.fs → k = false := by
      intro k hm
      have h1 := kindOf_of_mem hwf.1 hm
      rw [hkf] at h1
      exact (Option.some.inj h1).symm
    have hsafe : ∀ (m' : RName) (c' : String), c' ∈ get_protected_folder_names →
        st.fs.existsP [RName.utf8 c', m'] = true → n ≠ RName.utf8 c' := by
      intro m' c' _ hex hcontra
      have hpard := parent_dir_of_child hwf.1 hwf.2 hex
      rw [← hcontra, hkf] at hpard
      simp at hpard
    rw [stepEntry_file hd] at herr ⊢
    dsimp only at herr ⊢
    by_cases hcd : st.fs.existsP [RName.utf8 (fileCategoryOf n)] = true
    · rw [process_file_real_noCreate hcd] at herr ⊢
      by_cases hdest : st.fs.existsP [RName.utf8 (fileCategoryOf n), n] = true
      · rw [if_pos hdest] at herr ⊢
        dsimp only
        refine ⟨hwf, fun m hm => (hkinds m (List.mem_cons_of_mem _ hm)).1, ?_⟩
        intro m k hm hmR
        by_cases hmn : m = n
        · subst hmn
          rw [hkind_self k hm]
          constructor
          · intro hc
            exact absurd hc (by simp)
          · intro _
            exact hdest
        · exact hstable m k hm (hnotin m hmn hmR)
      · rw [if_neg (by rw [Bool.not_eq_true] at hdest; rw [hdest]; simp)] at herr ⊢
        cases hren : FS.rename st.fs [n] [RName.utf8 (fileCategoryOf n), n] with
        | none =>
          rw [hren] at herr
          simp at herr
        | some fs2 =>
          obtain ⟨hpre, hfs2⟩ := rename_eq_some_iff.1 hren
          obtain ⟨hsrc, hcdir, hnex, hne⟩ := renamePre_pair_iff.1 hpre
          dsimp only
          subst hfs2
          refine ⟨wf_rename_pair hwf hcdir hnex hne, ?_, ?_⟩
          · intro m hm
            have hmn : n ≠ m := fun hc => hnR (hc ▸ hm)
            rw [kindOf_map_ren (not_single_pre_single hmn) not_pair_pre_single]
            exact (hkinds m (List.mem_cons_of_mem _ hm)).1
          · intro m k hm hmR
            obtain ⟨hmem, hmn⟩ := mem_map_ren_top hm
            exact stbody_preserved_map hsafe hmn (hstable m k hmem (hnotin m hmn hmR))
    · have hcdf : st.fs.existsP [RName.utf8 (fileCategoryOf n)] = false := by
        rw [Bool.not_eq_true] at hcd
        exact hcd
      rw [process_file_real_create hcdf] at herr ⊢
      have hdest : st.fs.existsP [RName.utf8 (fileCategoryOf n), n] = false :=
        existsP_child_false hwf.2 hcdf
      rw [if_neg (by rw [hdest]; simp)] at herr ⊢
      have hne : n ≠ RName.utf8 (fileCategoryOf n) := by
        intro hc
        rw [← hc] at hcdf
        rw [existsP_false_iff_kindOf.1 hcdf] at hkf
        simp at hkf
      have hwfb : Wf (st.fs ++ [([RName.utf8 (fileCategoryOf n)], true)]) :=
        wf_append_dir hwf hcdf
      have hsb_src : (FS.kindOf (st.fs ++ [([RName.utf8 (fileCategoryOf n)], true)]) [n]).isSome
          = true := by
        rw [kindOf_append_single_ne (by
          intro hc
          rw [List.cons.injEq] at hc
          exact hne hc.1)]
        rw [hkf]
        rfl
      have hsb_dir : FS.kindOf (st.fs ++ [([RName.utf8 (fileCategoryOf n)], true)])
          [RName.utf8 (fileCategoryOf n)] = some true := by
        rw [kindOf_append]
        rw [existsP_false_iff_kindOf.1 hcdf]
        rw [kindOf_single, if_pos rfl]
        rfl
      have hsb_nex : FS.existsP (st.fs ++ [([RName.utf8 (fileCategoryOf n)], true)])
          [RName.utf8 (fileCategoryOf n), n] = false := by
        rw [existsP_append_single]
        rw [hdest]
        simp
      have hpre := renamePre_pair_iff.2 ⟨hsb_src, hsb_dir, hsb_nex, hne⟩
      rw [rename_eq_some_iff.2 ⟨hpre, rfl⟩]
      dsimp only
      have hmC : ∀ m ∈ Rm, ([m] : FPath) ≠ [RName.utf8 (fileCategoryOf n)] := by
        intro m hm hc
        have h1 := (hkinds m (List.mem_cons_of_mem _ hm)).1
        have h2 := (hkinds m (List.mem_cons_of_mem _ hm)).2
        rw [← h1, hc] at h2
        rw [existsP_false_iff_kindOf.1 hcdf] at h2
        simp at h2
      refine ⟨wf_rename_pair hwfb hsb_dir hsb_nex hne, ?_, ?_⟩
      · intro m hm
        have hmn : n ≠ m := fun hc => hnR (hc ▸ hm)
        rw [kindOf_map_ren (not_single_pre_single hmn) not_pair_pre_single]
        rw [kindOf_append_single_ne (hmC m hm)]
        exact (hkinds m (List.mem_cons_of_mem _ hm)).1
      · intro m k hm hmR
        obtain ⟨hmem, hmn⟩ := mem_map_ren_top hm
        have hsafeb : ∀ (m' : RName) (c' : String), c' ∈ get_protected_folder_names →
            FS.existsP (st.fs ++ [([RName.utf8 (fileCategoryOf n)], true)])
              [RName.utf8 c', m'] = true → n ≠ RName.utf8 c' := by
          intro m' c' _ hex hcontra
          have hpard := parent_dir_of_child hwfb.1 hwfb.2 hex
          rw [← hcontra] at hpard
          rw [kindOf_append_single_ne (by
            intro hc
            rw [List.cons.injEq] at hc
            exact hne hc.1)] at hpard
          rw [hkf] at hpard
          simp at hpard
        rcases List.mem_append.1 hmem with hmem2 | hmem2
        · refine stbody_preserved_map hsafeb hmn (stbody_append_dir ?_)
          exact hstable m k hmem2 (hnotin m hmn hmR)
        · simp at hmem2
          rw [hmem2.1, hmem2.2]
          exact stbody_protected_dir (fileCategoryOf_mem n)

/-- An error-free non-dry run over distinct untouched entries yields a
well-formed and stable state. -/
theorem c6_run {fs0 : FS} :
    ∀ (Rm : List RName) (st : St), Rm.Nodup →
      Wf st.fs →
      (∀ m ∈ Rm, st.fs.kindOf [m] = fs0.kindOf [m] ∧ (fs0.kindOf [m]).isSome = true) →
      (∀ m k, ([m], k) ∈ st.fs → m ∉ Rm → StBody st.fs m k) →
      (runEntries false st Rm).errs = st.errs →
      Wf (runEntries false st Rm).fs ∧ StableFS (runEntries false st Rm).fs := by
  intro Rm
  induction Rm with
  | nil =>
    intro st _ hwf _ hstable _
    rw [runEntries_nil]
    exact ⟨hwf, fun m k hm => hstable m k hm (List.not_mem_nil m)⟩
  | cons n Rm ih =>
    intro st hnodup hwf hkinds hstable herr
    rw [runEntries_cons] at herr ⊢
    obtain ⟨l2, h2⟩ := runEntries_errs_ext false Rm (stepEntry false st n)
    obtain ⟨l1, h1⟩ := stepEntry_errs_ext false st n
    have hl : st.errs ++ (l1 ++ l2) = st.errs ++ [] := by
      rw [← List.append_assoc, ← h1, ← h2, List.append_nil]
      exact herr
    have hnil : l1 = [] ∧ l2 = [] :=
      List.append_eq_nil.1 (List.append_cancel_left hl)
    have herrstep : (stepEntry false st n).errs = st.errs := by
      rw [h1, hnil.1, List.append_nil]
    have hstep := c6_step hwf hkinds hstable (List.nodup_cons.1 hnodup).1 herrstep
    refine ih (stepEntry false st n) (List.nodup_cons.1 hnodup).2 hstep.1 ?_ hstep.2.2 ?_
    · intro m hm
      exact ⟨hstep.2.1 m hm, (hkinds m (List.mem_cons_of_mem _ hm)).2⟩
    · rw [h2, hnil.2, List.append_nil, herrstep]

/-- On a stable well-formed state, one non-dry step over any of its
top-level entries performs no filesystem change. -/
theorem stable_step {fs : FS} (hwf : Wf fs) (hst : StableFS fs) (st : St) (hfs : st.fs = fs)
    (m : RName) (hm : m ∈ topLevel fs) : (stepEntry false st m).fs = fs := by
  obtain ⟨k, hk⟩ := mem_topLevel_iff.1 hm
  have hkind := kindOf_of_mem hwf.1 hk
  have hbody := hst m k hk
  cases k with
  | true =>
    have hd : st.fs.isDirP [m] = true := by
      rw [hfs]
      exact isDirP_true_iff.2 hkind
    cases m with
    | raw id e =>
      rw [stepEntry_dir_raw hd]
      exact hfs
    | utf8 s =>
      by_cases hp : s ∈ get_protected_folder_names
      · rw [stepEntry_dir_prot hd hp]
        exact hfs
      · rw [stepEntry_dir_loose hd hp]
        dsimp only
        rw [hfs]
        have hex : fs.existsP [RName.utf8 "Folders", RName.utf8 s] = true :=
          hbody.1 rfl s rfl hp
        have hF : fs.existsP [RName.utf8 "Folders"] = true := by
          obtain ⟨k2, hk2⟩ := existsP_true_iff.1 hex
          exact existsP_of_kindOf (kindOf_of_mem hwf.1 (child_parent_dir hwf.2 hk2))
        have hg : ([RName.utf8 s] : FPath) ≠ [RName.utf8 "Folders"] := by
          intro hc
          simp at hc
          exact hp (hc ▸ (by decide : "Folders" ∈ get_protected_folder_names))
        rw [process_directory_real_noCreate hF hg, if_pos hex]
  | false =>
    have hd : st.fs.isDirP [m] = false := by
      rw [hfs]
      unfold FS.isDirP
      rw [hkind]
      rfl
    rw [stepEntry_file hd]
    dsimp only
    rw [hfs]
    have hex : fs.existsP [RName.utf8 (fileCategoryOf m), m] = true := hbody.2 rfl
    have hcd : fs.existsP [RName.utf8 (fileCategoryOf m)] = true := by
      obtain ⟨k2, hk2⟩ := existsP_true_iff.1 hex
      exact existsP_of_kindOf (kindOf_of_mem hwf.1 (child_parent_dir hwf.2 hk2))
    rw [process_file_real_noCreate hcd, if_pos hex]

/-- On a stable well-formed state, a whole non-dry pass over its own
listing performs no filesystem change. -/
theorem stable_run {fs : FS} (hwf : Wf fs) (hst : StableFS fs) :
    ∀ (names : List RName), (∀ m ∈ names, m ∈ topLevel fs) →
      ∀ st : St, st.fs = fs → (runEntries false st names).fs = fs := by
  intro names
  induction names with
  | nil =>
    intro _ st hfs
    rw [runEntries_nil]
    exact hfs
  | cons n ns ih =>
    intro hmem st hfs
    rw [runEntries_cons]
    exact ih (fun m hm => hmem m (List.mem_cons_of_mem _ hm)) _
      (stable_step hwf hst st hfs n (hmem n (List.mem_cons_self _ _)))

/-! The claim theorems. -/

/-- C1: the destination category of a file entry is the extension map entry
for its lowercased extension: a mapped extension (whatever its letter case)
yields the mapped category and never "Others"; a missing extension or an
unmapped one yields "Others"; and the driver hands the file to
`process_file` with exactly that category. -/
theorem claim_C1 (name : RName) :
    (∀ e cat, name.extOf = some e →
       mapLookup get_extension_map (strToLower e) = some cat →
       fileCategoryOf name = cat ∧ cat ≠ "Others") ∧
    (name.extOf = none → fileCategoryOf name = "Others") ∧
    (∀ e, name.extOf = some e → mapLookup get_extension_map (strToLower e) = none →
       fileCategoryOf name = "Others") ∧
    (∀ dry (st : St), st.fs.isDirP [name] = false →
       stepEntry dry st name =
         { fs := (process_file st.fs [name] [] (fileCategoryOf name) dry).fs
           filesCount := st.filesCount +
             (if (process_file st.fs [name] [] (fileCategoryOf name) dry).acted then 1 else 0)
           dirsCount := st.dirsCount
           out := st.out ++ (process_file st.fs [name] [] (fileCategoryOf name) dry).out
           errs := st.errs ++ (process_file st.fs [name] [] (fileCategoryOf name) dry).err }) := by
  refine ⟨?_, ?_, ?_, fun dry st h => stepEntry_file h⟩
  · intro e cat he hc
    exact ⟨fileCategoryOf_of_lookup he hc, (mapLookup_values_protected hc).2⟩
  · intro he
    unfold fileCategoryOf extLower
    rw [he]
    have hemp : mapLookup get_extension_map "" = none := by decide
    simp only [Option.map_none', Option.getD_none]
    rw [hemp]
  · intro e he hn
    unfold fileCategoryOf extLower
    rw [he]
    simp only [Option.map_some', Option.getD_some]
    rw [hn]

/-- Witness for C1 at concrete inputs: a mapped upper-case extension, a
file without extension, and an unmapped extension. -/
theorem claim_C1_witness :
    fileCategoryOf (RName.utf8 "photo.JPG") = "images" ∧ "images" ≠ "Others" ∧
    fileCategoryOf (RName.utf8 "README") = "Others" ∧
    fileCategoryOf (RName.utf8 "setup.meme") = "Others" := by
  refine ⟨?_, ?_, ?_, ?_⟩
  · exact ((claim_C1 (RName.utf8 "photo.JPG")).1 "JPG" "images" (by decide) (by decide)).1
  · exact ((claim_C1 (RName.utf8 "photo.JPG")).1 "JPG" "images" (by decide) (by decide)).2
  · exact (claim_C1 (RName.utf8 "README")).2.1 (by decide)
  · exact (claim_C1 (RName.utf8 "setup.meme")).2.2.1 "meme" (by decide) (by decide)

/-- C2: when the computed destination path already exists the relocation
emits the skip notice, returns false, and leaves the filesystem unchanged,
so the occupant is never overwritten and the source entry stays in place;
for the directory procedure this holds whenever the entry is not the
container itself, which is what the driver guarantees for its entries. -/
theorem claim_C2 (fs : FS) (n : RName) (c : String) (dry : Bool)
    (hpc : ParentCl fs)
    (hex : fs.existsP [RName.utf8 c, n] = true) :
    process_file fs [n] [] c dry = ⟨false, fs, [Msg.skipFile n c], []⟩ ∧
    (([n] : FPath) ≠ [RName.utf8 c] →
      process_directory fs [n] [] c dry = ⟨false, fs, [Msg.skipDir n c], []⟩) := by
  have hcd : fs.existsP [RName.utf8 c] = true := by
    obtain ⟨k, hk⟩ := existsP_true_iff.1 hex
    have hpp : ([RName.utf8 c] : FPath) ∈ properParents [RName.utf8 c, n] := by
      rw [properParents_pair]
      exact List.mem_singleton.2 rfl
    exact existsP_true_iff.2 ⟨true, hpc _ hk _ hpp⟩
  constructor
  · cases dry with
    | true => rw [process_file_dry, if_pos hex]
    | false => rw [process_file_real_noCreate hcd, if_pos hex]
  · intro hg
    cases dry with
    | true => rw [process_directory_dry hg, if_pos hex]
    | false => rw [process_directory_real_noCreate hcd hg, if_pos hex]

/-- Witness for C2: a loose "report.txt" whose slot under "documents" is
occupied is skipped with a notice and the state is unchanged, for the file
procedure and the directory procedure alike. -/
theorem claim_C2_witness :
    process_file skipFS [RName.utf8 "report.txt"] [] "documents" false =
      ⟨false, skipFS, [Msg.skipFile (RName.utf8 "report.txt") "documents"], []⟩ ∧
    process_directory skipDirFS [RName.utf8 "my-project"] [] "Folders" false =
      ⟨false, skipDirFS, [Msg.skipDir (RName.utf8 "my-project") "Folders"], []⟩ := by
  constructor
  · exact (claim_C2 skipFS (RName.utf8 "report.txt") "documents" false
      (by decide) (by decide)).1
  · exact (claim_C2 skipDirFS (RName.utf8 "my-project") "Folders" false
      (by decide) (by decide)).2 (by decide)

/-- C4: whether a directory entry is protected is decided by exact
case-sensitive membership of its name in the fixed set of the eleven
container names: a protected directory is left alone entirely, and any
other directory is handed to `process_directory` with container "Folders",
the directory counter incremented exactly when it reports success. -/
theorem claim_C4 (dry : Bool) (st : St) (s : String)
    (h : st.fs.isDirP [RName.utf8 s] = true) :
    (s ∈ ["images", "documents", "spreadsheets", "presentations", "archives",
          "audio", "video", "code", "APPS", "Others", "Folders"] →
       stepEntry dry st (RName.utf8 s) = st) ∧
    (s ∉ ["images", "documents", "spreadsheets", "presentations", "archives",
          "audio", "video", "code", "APPS", "Others", "Folders"] →
       stepEntry dry st (RName.utf8 s) =
         { fs := (process_directory st.fs [RName.utf8 s] [] "Folders" dry).fs
           filesCount := st.filesCount
           dirsCount := st.dirsCount +
             (if (process_directory st.fs [RName.utf8 s] [] "Folders" dry).acted then 1 else 0)
           out := st.out ++ (process_directory st.fs [RName.utf8 s] [] "Folders" dry).out
           errs := st.errs ++ (process_directory st.fs [RName.utf8 s] [] "Folders" dry).err }) := by
  have hset : get_protected_folder_names =
      ["images", "documents", "spreadsheets", "presentations", "archives",
       "audio", "video", "code", "APPS", "Others", "Folders"] := rfl
  constructor
  · intro hs
    exact stepEntry_dir_prot h (by rw [hset]; exact hs)
  · intro hs
    exact stepEntry_dir_loose h (by rw [hset]; exact hs)

/-- Witness for C4: the protected directory "images" is left alone (and in
particular "APPS" matches only in its exact case), while the loose
directory "my-project" is relocated and counted. -/
theorem claim_C4_witness :
    stepEntry false (initSt [([RName.utf8 "images"], true)]) (RName.utf8 "images") =
      initSt [([RName.utf8 "images"], true)] ∧
    (stepEntry false (initSt [([RName.utf8 "apps"], true)]) (RName.utf8 "apps")).dirsCount = 1 ∧
    (stepEntry false (initSt [([RName.utf8 "my-project"], true)]) (RName.utf8 "my-project")).dirsCount = 1 := by
  refine ⟨?_, ?_, ?_⟩
  · exact (claim_C4 false (initSt [([RName.utf8 "images"], true)]) "images" (by decide)).1
      (by decide)
  · have h := (claim_C4 false (initSt [([RName.utf8 "apps"], true)]) "apps" (by decide)).2
      (by decide)
    rw [h]
    decide
  · have h := (claim_C4 false (initSt [([RName.utf8 "my-project"], true)]) "my-project"
      (by decide)).2 (by decide)
    rw [h]
    decide

/-- C5: the run exits with code 1 and a stderr diagnostic exactly when the
target is not a directory or the initial listing cannot be opened; in every
other case the whole entry loop runs and the exit code is 0, whatever the
per-entry outcomes on the given state are. -/
theorem claim_C5 (t r dry : Bool) (fs : FS) :
    exitCode (mainRun t r dry fs) = (if !t || !r then 1 else 0) ∧
    ((!t || !r) = true → ∃ msg, mainRun t r dry fs = Except.error msg) ∧
    (t = true → r = true → mainRun t r dry fs = Except.ok (runOnce dry fs)) := by
  cases t <;> cases r <;> simp [mainRun, exitCode]

/-- Witness for C5 at concrete inputs: a failing target check exits 1 with
a diagnostic, passing checks exit 0. -/
theorem claim_C5_witness :
    exitCode (mainRun false true false []) = 1 ∧
    exitCode (mainRun true true false []) = 0 ∧
    (∃ msg, mainRun false true false [] = Except.error msg) := by
  have h1 := (claim_C5 false true false []).1
  have h2 := (claim_C5 true true false []).1
  have h3 := (claim_C5 false true false []).2.1 (by decide)
  exact ⟨by simpa using h1, by simpa using h2, h3⟩

/-- C7 fails on the code: the source checks the guard first, so with the
entry equal to the container and the destination occupied, the code emits
no notice at all, while the spec-ordered procedure (destination check
first) emits the skip notice. -/
theorem claim_C7_counterexample :
    process_directory guardFS [RName.utf8 "Folders"] [] "Folders" false ≠
      process_directory_specOrder guardFS [RName.utf8 "Folders"] [] "Folders" false ∧
    guardFS.existsP [RName.utf8 "Folders", RName.utf8 "Folders"] = true ∧
    (process_directory guardFS [RName.utf8 "Folders"] [] "Folders" false).out = [] ∧
    (process_directory_specOrder guardFS [RName.utf8 "Folders"] [] "Folders" false).out =
      [Msg.skipDir (RName.utf8 "Folders") "Folders"] := by
  decide

/-- C7 amended: the move-container-into-itself guard is performed before
the destination-already-exists check: when the entry path equals the
destination container the procedure returns false without acting and
without any notice, even when the destination path exists; otherwise an
existing destination path yields the skip notice and false. -/
theorem claim_C7 (fs : FS) (n : RName) (c : String) (dry : Bool) :
    (([n] : FPath) = [RName.utf8 c] → fs.existsP [RName.utf8 c] = true →
       process_directory fs [n] [] c dry = ⟨false, fs, [], []⟩) ∧
    (([n] : FPath) ≠ [RName.utf8 c] → ParentCl fs →
       fs.existsP [RName.utf8 c, n] = true →
       process_directory fs [n] [] c dry = ⟨false, fs, [Msg.skipDir n c], []⟩) := by
  constructor
  · intro hg hex
    unfold process_directory
    simp only [List.nil_append, hex, Bool.not_true, Bool.and_false, Bool.false_and,
      if_neg, ite_false, Bool.false_eq_true]
    rw [if_pos hg]
  · intro hg hpc hex
    have hcd : fs.existsP [RName.utf8 c] = true := by
      obtain ⟨k, hk⟩ := existsP_true_iff.1 hex
      have hpp : ([RName.utf8 c] : FPath) ∈ properParents [RName.utf8 c, n] := by
        rw [properParents_pair]
        exact List.mem_singleton.2 rfl
      exact existsP_true_iff.2 ⟨true, hpc _ hk _ hpp⟩
    cases dry with
    | true => rw [process_directory_dry hg, if_pos hex]
    | false => rw [process_directory_real_noCreate hcd hg, if_pos hex]

/-- Witness for C7 amended: the guard case emits nothing on `guardFS`, the
collision case emits the skip notice on `skipDirFS`. -/
theorem claim_C7_witness :
    process_directory guardFS [RName.utf8 "Folders"] [] "Folders" false =
      ⟨false, guardFS, [], []⟩ ∧
    process_directory skipDirFS [RName.utf8 "my-project"] [] "Folders" true =
      ⟨false, skipDirFS, [Msg.skipDir (RName.utf8 "my-project") "Folders"], []⟩ := by
  constructor
  · exact (claim_C7 guardFS (RName.utf8 "Folders") "Folders" false).1 (by decide) (by decide)
  · exact (claim_C7 skipDirFS (RName.utf8 "my-project") "Folders" true).2
      (by decide) (by decide) (by decide)

/-- C8 fails on the code: the acted-upon line left-aligns (right-pads) the
category instead of left-padding it, and every printed entry name is
Debug-quoted rather than bare. -/
theorem claim_C8_counterexample :
    renderMsg (Msg.catFile "images" (RName.utf8 "photo.JPG")) ≠
      claimedActedLine "images" "photo.JPG" ∧
    renderMsg (Msg.skipFile (RName.utf8 "report.txt") "documents") ≠
      claimedSkipLine "report.txt" "documents" := by
  decide

/-- C8 amended: acted-upon entries print the category left-aligned (padded
on the right) to 12 characters followed by the Debug-quoted entry name;
file and directory collisions print the SKIP and SKIP DIR notices with the
Debug-quoted name; directory moves carry the literal "(Directory) " marker;
and the footer is exactly the claimed Done line. -/
theorem claim_C8 (c n : String) (f d : Nat) :
    renderMsg (Msg.catFile c (RName.utf8 n)) = amendedActedLine c n ∧
    renderMsg (Msg.skipFile (RName.utf8 n) c) = amendedSkipLine n c ∧
    renderMsg (Msg.skipDir (RName.utf8 n) c) = amendedSkipDirLine n c ∧
    renderMsg (Msg.catDir c (RName.utf8 n)) = amendedDirLine c n ∧
    doneLine f d = claimedFooter f d :=
  ⟨rfl, rfl, rfl, rfl, rfl⟩

/-- C9: every category value of the extension map lies in the protected
folder set, as do the two catch-alls "Others" and "Folders", so no
container directory a run can create or populate is itself a candidate for
relocation. -/
theorem claim_C9 :
    (∀ k cat, mapLookup get_extension_map k = some cat →
       cat ∈ get_protected_folder_names) ∧
    "Others" ∈ get_protected_folder_names ∧
    "Folders" ∈ get_protected_folder_names ∧
    (∀ name, fileCategoryOf name ∈ get_protected_folder_names) := by
  refine ⟨?_, by decide, by decide, fileCategoryOf_mem⟩
  intro k cat h
  exact (mapLookup_values_protected h).1

/-- Witness for C9 at a concrete key. -/
theorem claim_C9_witness :
    "images" ∈ get_protected_folder_names ∧ "Others" ∈ get_protected_folder_names := by
  exact ⟨claim_C9.1 "jpg" "images" (by decide), claim_C9.2.1⟩

/-- C10: a directory entry whose final path component is not valid UTF-8 is
silently skipped by the driver: no protection check, no relocation, no
counter change, no output at all — the whole driver state is untouched. -/
theorem claim_C10 (st : St) (dry : Bool) (id : Nat) (e : Option String)
    (h : st.fs.isDirP [RName.raw id e] = true) :
    stepEntry dry st (RName.raw id e) = st :=
  stepEntry_dir_raw h

/-- Witness for C10 at a concrete non-UTF-8 directory. -/
theorem claim_C10_witness :
    stepEntry false (initSt [([RName.raw 0 none], true)]) (RName.raw 0 none) =
      initSt [([RName.raw 0 none], true)] :=
  claim_C10 _ false 0 none (by decide)

/-- C3 fails as stated: on `cexFS` the real run's directory move fails (the
rename target parent "Folders" is a regular file on disk), so the real run
counts 0 folders while the dry run counts 1 — the final counters differ. -/
theorem claim_C3_counterexample :
    (runOnce true cexFS).dirsCount = 1 ∧ (runOnce false cexFS).dirsCount = 0 ∧
    (runOnce true cexFS).dirsCount ≠ (runOnce false cexFS).dirsCount := by
  decide

/-- C3 amended: on a well-formed state, a dry run performs no filesystem
mutation and writes nothing to stderr, its classification and per-entry
stdout messages are identical to those of a real run on the same initial
state, and the final counters are identical provided the real run reports
no per-entry errors. -/
theorem claim_C3 (fs0 : FS) (hwf : Wf fs0) :
    (runOnce true fs0).fs = fs0 ∧
    (runOnce true fs0).out = (runOnce false fs0).out ∧
    (runOnce true fs0).errs = [] ∧
    ((runOnce false fs0).errs = [] →
      (runOnce true fs0).filesCount = (runOnce false fs0).filesCount ∧
      (runOnce true fs0).dirsCount = (runOnce false fs0).dirsCount) := by
  have hbase : C3Rel fs0 (topLevel fs0) (initSt fs0) (initSt fs0) := by
    refine ⟨rfl, hwf, rfl, rfl, fun _ => ⟨rfl, rfl⟩, ?_⟩
    intro m hm
    obtain ⟨k, hk⟩ := mem_topLevel_iff.1 hm
    refine ⟨rfl, ?_, fun c hc => rfl⟩
    rw [kindOf_of_mem hwf.1 hk]
    rfl
  have h := c3_run (topLevel fs0) (initSt fs0) (initSt fs0) (topLevel_nodup hwf.1) hbase
  obtain ⟨h1, h2, h3, h4, h5, h6⟩ := h
  exact ⟨h1, h3, h4, h5⟩

/-- Witness for C3 amended: on a one-file state the dry run leaves the
filesystem alone, prints the same line as the real run, and counts the same
because the real run reports no errors. -/
theorem claim_C3_witness :
    (runOnce true [([RName.utf8 "a"], false)]).fs = [([RName.utf8 "a"], false)] ∧
    (runOnce true [([RName.utf8 "a"], false)]).out =
      (runOnce false [([RName.utf8 "a"], false)]).out ∧
    (runOnce true [([RName.utf8 "a"], false)]).filesCount =
      (runOnce false [([RName.utf8 "a"], false)]).filesCount := by
  have h := claim_C3 [([RName.utf8 "a"], false)] (by decide)
  exact ⟨h.1, h.2.1, (h.2.2.2 (by decide)).1⟩

/-- C6 fails as stated: on `cexFS` the first run's directory move fails
(the rename target parent "Folders" is a regular file), the loose directory
stays at the top level, and the second run creates the "Folders" directory
and moves it — the filesystem after the second run differs from the state
after the first. -/
theorem claim_C6_counterexample :
    (runOnce false (runOnce false cexFS).fs).fs ≠ (runOnce false cexFS).fs := by
  decide

/-- C6 amended: running the tool twice in sequence (non-dry-run) on a
well-formed directory state is idempotent provided the first run reports no
per-entry errors: the second run leaves the filesystem unchanged from the
state after the first run, every entry either sitting in a protected
container or hitting the skip-on-collision or protected-name path. -/
theorem claim_C6 (fs0 : FS) (hwf : Wf fs0)
    (herr : (runOnce false fs0).errs = []) :
    (runOnce false (runOnce false fs0).fs).fs = (runOnce false fs0).fs := by
  have hmain : Wf (runOnce false fs0).fs ∧ StableFS (runOnce false fs0).fs := by
    unfold runOnce
    refine @c6_run fs0 (topLevel fs0) (initSt fs0) (topLevel_nodup hwf.1) hwf ?_ ?_ ?_
    · intro m hm
      obtain ⟨k, hk⟩ := mem_topLevel_iff.1 hm
      refine ⟨rfl, ?_⟩
      rw [kindOf_of_mem hwf.1 hk]
      rfl
    · intro m k hm hmR
      exact absurd (mem_topLevel_iff.2 ⟨k, hm⟩) hmR
    · exact herr
  exact stable_run hmain.1 hmain.2 (topLevel (runOnce false fs0).fs)
    (fun m hm => hm) (initSt _) rfl

/-- Witness for C6 amended: a single loose extensionless file is moved to
"Others" by the first run without errors, and the second run changes
nothing. -/
theorem claim_C6_witness :
    (runOnce false (runOnce false [([RName.utf8 "a"], false)]).fs).fs =
      (runOnce false [([RName.utf8 "a"], false)]).fs :=
  claim_C6 [([RName.utf8 "a"], false)] (by decide) (by decide)

end AutoOrganize
